import Mathlib

/-!
Verification of the pitwall telemetry library against its specification.

The Rust source is shallowly embedded: machine integers become `Nat`/`Int`
with explicit wraparound where the source wraps, byte buffers become
`List Nat`, strings become `List Char`, fallible code returns `Option` or
`Except`, and the async stream combinator becomes an explicit step function
on its state. Every definition mirrors a named item of the source tree.
-/

set_option maxRecDepth 40000

namespace Pitwall

/-! ### types/variable_type.rs -/

/-- Embeds `VariableType` (src/types/variable_type.rs). -/
inductive VariableType where
  | Char
  | Int8
  | UInt8
  | Int16
  | UInt16
  | Int32
  | UInt32
  | Float32
  | Float64
  | Bool
  | BitField
  deriving DecidableEq, Repr

/-- Embeds `VariableType::size` (src/types/variable_type.rs). -/
def VariableType.size : VariableType → Nat
  | .Char | .Bool => 1
  | .Int8 | .UInt8 => 1
  | .Int16 | .UInt16 => 2
  | .Int32 | .UInt32 | .Float32 | .BitField => 4
  | .Float64 => 8

/-! ### types/bitfield.rs -/

/-- Wrapping subtraction on 32-bit unsigned integers represented as
naturals below 2 to the 32; embeds `u32::wrapping_sub`. -/
def wrappingSub32 (a b : Nat) : Nat :=
  (a + 2 ^ 32 - b) % 2 ^ 32

/-- Embeds `tick_after_u32` (src/types/bitfield.rs): true when `a` is
considered newer than `b` under the half-range rule. -/
def tick_after_u32 (a b : Nat) : Bool :=
  if a = b then false
  else decide (wrappingSub32 a b < 2 ^ 31)

/-! ### error.rs -/

/-- Embeds the `TelemetryError` enum (src/error.rs).  Payloads are carried
only as far as needed to distinguish values: heap-allocated messages, io
errors and boxed sources are abstracted to `Unit`, since `is_retryable`
inspects only the variant.  The `WindowsApi` variant is compiled under
`cfg(windows)` in the source and is included here. -/
inductive TelemetryError where
  | Connection (reason : Unit) (source : Option Unit)
  | File (path : Unit) (source : Unit)
  | Version (expected found : Nat)
  | Memory (offset : Nat) (source : Option Unit)
  | Parse (context details : Unit)
  | Timeout (duration : Unit)
  | FieldNotFound (field : Unit)
  | TypeConversion (details : Unit)
  | UnsupportedPlatform (feature requiredPlatform : Unit)
  | WindowsApi (operation : Unit) (source : Unit)
  | SchemaValidation (reason : Unit) (expectedVersion actualVersion : Option Nat)
  | Buffer (context : Unit) (bufferIndex : Option Nat) (source : Option Unit)
  deriving DecidableEq, Repr

/-- Embeds `TelemetryError::is_retryable` (src/error.rs, lines 126 to 142),
arm for arm. -/
def TelemetryError.is_retryable : TelemetryError → Bool
  | .Connection _ _ => true
  | .Timeout _ => true
  | .Buffer _ _ _ => true
  | .Memory _ _ => false
  | .File _ _ => false
  | .Version _ _ => false
  | .Parse _ _ => false
  | .FieldNotFound _ => false
  | .TypeConversion _ => false
  | .UnsupportedPlatform _ _ => false
  | .WindowsApi _ _ => true
  | .SchemaValidation _ _ _ => false

/-! ### types/update_rate.rs

Finite `f64` values are modelled as exact rationals.  A `u32` converts to
`f64` exactly (53 mantissa bits), so `hz as f64 >= source_hz` is an exact
rational comparison for every finite `source_hz`.  The one non-finite value
that arises, `1.0 / 0.0`, is modelled by `Option`: `none` stands for a
non-finite `f64`. -/

/-- Embeds `UpdateRate` (src/types/update_rate.rs). -/
inductive UpdateRate where
  | Native
  | Max (hz : Nat)
  deriving DecidableEq, Repr

/-- Embeds `1.0 / (hz as f64)`: division of the finite constant 1.0 by an
exact nonnegative integer; the quotient is non-finite (positive infinity)
exactly when the divisor is zero. -/
def f64OneDiv (hz : Nat) : Option ℚ :=
  if hz = 0 then none else some (1 / (hz : ℚ))

/-- Embeds `std::time::Duration::from_secs_f64`, which panics when its
argument is not finite or is negative; `none` is the panic. A `Duration`
is modelled as its length in seconds (the nanosecond quantization of
`Duration` is not modelled). -/
def durationFromSecsF64 (secs : Option ℚ) : Option ℚ :=
  match secs with
  | none => none
  | some q => if 0 ≤ q then some q else none

/-- Embeds `UpdateRate::normalize` (src/types/update_rate.rs, lines 20
to 26). -/
def UpdateRate.normalize (r : UpdateRate) (sourceHz : ℚ) : UpdateRate :=
  match r with
  | .Native => .Native
  | .Max hz => if sourceHz ≤ (hz : ℚ) then .Native else .Max hz

/-- Embeds `UpdateRate::throttle_interval` (src/types/update_rate.rs,
lines 37 to 42).  `Except.error ()` is the panic raised inside
`Duration::from_secs_f64`; `Except.ok none` means no throttling. -/
def UpdateRate.throttle_interval (r : UpdateRate) (sourceHz : ℚ) :
    Except Unit (Option ℚ) :=
  match r.normalize sourceHz with
  | .Native => .ok none
  | .Max hz =>
    match durationFromSecsF64 (f64OneDiv hz) with
    | some d => .ok (some d)
    | none => .error ()

/-- Embeds the rate-control arm of `ReplayConnection::subscribe`
(src/connection/replay.rs, lines 94 to 106): the rate is normalized, and
the `Max` branch computes `Duration::from_secs_f64(1.0 / hz as f64)` for
the throttle.  `Except.ok none` is the `Native` branch (no throttle),
`Except.ok (some d)` the throttled branch, `Except.error ()` the panic. -/
def subscribeThrottleSetup (rate : UpdateRate) (sourceHz : ℚ) :
    Except Unit (Option ℚ) :=
  match rate.normalize sourceHz with
  | .Native => .ok none
  | .Max hz =>
    match durationFromSecsF64 (f64OneDiv hz) with
    | some d => .ok (some d)
    | none => .error ()

/-! ### stream/throttle.rs

The async combinator is embedded as an explicit step function on its
state.  One call to `Throttle::poll_next` observes: the result of
`interval.poll_tick` (`tick = false` means the timer returned
`Poll::Pending`), and, when the timer has elapsed, the drain loop
observes a finite run of `Poll::Ready(Some _)` items (`batch`, in
arrival order) terminated either by `Poll::Ready(None)` from the source
(`srcEnded = true`) or by `Poll::Pending` (`srcEnded = false`). -/

/-- Result of one call to `Stream::poll_next`. -/
inductive PollResult (α : Type) where
  | pending
  | ready (a : α)
  | done
  deriving DecidableEq, Repr

/-- Embeds the body of `Throttle::poll_next` (src/stream/throttle.rs,
lines 51 to 74).  The drain loop stores each arriving item into the
`pending` field (latest wins); both the `Ready(None)` arm and the
`Pending` arm return `Poll::Ready(self.pending.take())`, so the result
does not depend on `srcEnded`.  Returns the poll result paired with the
new value of the `pending` field. -/
def throttlePollNext {α : Type} (pending : Option α) (tick : Bool)
    (batch : List α) (srcEnded : Bool) : PollResult α × Option α :=
  if tick then
    let collected := batch.foldl (fun _ item => some item) pending
    match collected with
    | some v => (.ready v, none)
    | none => (.done, none)
  else (.pending, pending)

/-- One observed call to `poll_next` of a throttled stream. -/
structure ThrottleCall (α : Type) where
  tick : Bool
  batch : List α
  srcEnded : Bool

/-- Runs a sequence of `poll_next` calls from a given `pending` state,
collecting the emitted items in order. -/
def throttleRun {α : Type} (pending : Option α) :
    List (ThrottleCall α) → List α × Option α
  | [] => ([], pending)
  | c :: cs =>
    let step := throttlePollNext pending c.tick c.batch c.srcEnded
    let rest := throttleRun step.2 cs
    (match step.1 with
     | .ready a => a :: rest.1
     | _ => rest.1, rest.2)

/-- The items the source stream hands to the throttle during a sequence of
calls: a call whose timer has not elapsed never polls the source. -/
def throttleInputs {α : Type} : List (ThrottleCall α) → List α
  | [] => []
  | c :: cs => (if c.tick then c.batch else []) ++ throttleInputs cs

/-! ### types/schema.rs

Byte buffers are `List Nat` (one entry per byte); the strings obtained by
lossy UTF-8 decoding are kept as their underlying byte lists, which
preserves emptiness and equality of names. -/

/-- Embeds `VariableInfo` (src/types/schema.rs). -/
structure VariableInfo where
  name : List Nat
  data_type : VariableType
  offset : Nat
  count : Nat
  count_as_time : Bool
  units : List Nat
  description : List Nat
  deriving DecidableEq, Repr

/-- Embeds `VariableSchema` (src/types/schema.rs); the
`HashMap<String, VariableInfo>` is modelled as the association list of its
entries (keys unique by construction of `insertReplace` below).  The field
named `variables` in the source is called `vars` here because `variables`
is reserved. -/
structure VariableSchema where
  vars : List (List Nat × VariableInfo)
  frame_size : Nat
  deriving DecidableEq, Repr

/-- Embeds `VariableSchema::validate` (src/types/schema.rs, lines 27 to
59): every entry must have a nonzero count, a name equal to its map key,
and must fit inside the frame.  The source walks the map and fails on the
first offending entry; acceptance is the stated conjunction over all
entries. -/
def VariableSchema.validate (s : VariableSchema) : Bool :=
  s.vars.all fun p =>
    !(p.2.count == 0) && (p.2.name == p.1) &&
      decide (p.2.offset + p.2.data_type.size * p.2.count ≤ s.frame_size)

/-- Embeds `VariableSchema::new` (src/types/schema.rs, lines 20 to 24):
construct, validate, and return the schema or an error. -/
def VariableSchema.new (vs : List (List Nat × VariableInfo))
    (frame_size : Nat) : Option VariableSchema :=
  let s : VariableSchema := ⟨vs, frame_size⟩
  if s.validate then some s else none

/-! ### ibt/format.rs -/

/-- Interprets a natural number below 2 to the 32 as a signed 32-bit
value, the way `i32::from_le_bytes` does. -/
def i32OfNat (n : Nat) : Int :=
  if n % 2 ^ 32 < 2 ^ 31 then ((n % 2 ^ 32 : Nat) : Int)
  else ((n % 2 ^ 32 : Nat) : Int) - 2 ^ 32

/-- Embeds `parse_i32_le` (src/ibt/format.rs, lines 329 to 341): bounds
check, then four little-endian bytes. -/
def parse_i32_le (data : List Nat) (off : Nat) : Option Int :=
  if off + 4 ≤ data.length then
    some (i32OfNat (data.getD off 0 + 256 * data.getD (off + 1) 0 +
      65536 * data.getD (off + 2) 0 + 16777216 * data.getD (off + 3) 0))
  else none

/-- Embeds `extract_null_terminated_string` (src/ibt/format.rs, lines 390
to 393): the bytes before the first NUL (all of them when no NUL occurs);
the lossy UTF-8 decoding is kept as the byte list itself. -/
def nulTerminated (bytes : List Nat) : List Nat :=
  bytes.takeWhile fun b => !(b == 0)

/-- Embeds `IbtHeader` (src/ibt/format.rs, lines 38 to 49). -/
structure IbtHeader where
  version : Int
  status : Int
  tick_rate : Int
  session_info_update : Int
  session_info_len : Int
  session_info_offset : Int
  num_vars : Int
  var_header_offset : Int
  num_buf : Int
  buf_len : Int
  deriving DecidableEq, Repr

/-- Embeds `IbtHeader::parse_from_reader` (src/ibt/format.rs, lines 72 to
124): read 144 bytes from the start of the stream and decode the ten
little-endian fields at offsets 0,4,...,36. -/
def parseIbtHeader (data : List Nat) : Option IbtHeader :=
  if 144 ≤ data.length then do
    let version ← parse_i32_le data 0
    let status ← parse_i32_le data 4
    let tick_rate ← parse_i32_le data 8
    let session_info_update ← parse_i32_le data 12
    let session_info_len ← parse_i32_le data 16
    let session_info_offset ← parse_i32_le data 20
    let num_vars ← parse_i32_le data 24
    let var_header_offset ← parse_i32_le data 28
    let num_buf ← parse_i32_le data 32
    let buf_len ← parse_i32_le data 36
    return { version, status, tick_rate, session_info_update,
             session_info_len, session_info_offset, num_vars,
             var_header_offset, num_buf, buf_len }
  else none

/-- Embeds `IbtHeader::validate` (src/ibt/format.rs, lines 126 to 187);
acceptance is the conjunction of all the checks made there. -/
def IbtHeader.validateB (h : IbtHeader) : Bool :=
  (h.version == 2) && decide (0 ≤ h.num_vars) && decide (0 ≤ h.buf_len) &&
    decide (0 ≤ h.session_info_offset) && decide (0 ≤ h.session_info_len) &&
    decide (0 ≤ h.var_header_offset) && decide (h.buf_len ≤ 100000000) &&
    decide (h.num_vars ≤ 10000)

/-- Embeds `IbtDiskSubHeader::parse_from_reader` (src/ibt/format.rs, lines
194 to 212): reads the 32 bytes that follow the 144-byte main header.  Of
its five fields only `record_count` (i32 at file offset 172) flows into
any later computation, so only it is retained; the read together with its
bounds check is kept. -/
def parseDiskSubHeader (data : List Nat) : Option Int :=
  if 176 ≤ data.length then parse_i32_le data 172 else none

/-- Embeds the per-record body of the loop in `extract_variable_schema`
(src/ibt/format.rs, lines 248 to 299) applied to one 144-byte variable
header record.  The outer `Option` is the parse error of the reads, the
inner `Option` is `none` when the record is skipped (empty name, negative
offset, nonpositive count, or unknown type tag). -/
def parseVarHeader (rec : List Nat) : Option (Option VariableInfo) := do
  let varType ← parse_i32_le rec 0
  let offset ← parse_i32_le rec 4
  let count ← parse_i32_le rec 8
  let name := nulTerminated ((rec.drop 16).take 32)
  let desc := nulTerminated ((rec.drop 48).take 64)
  let unit := nulTerminated ((rec.drop 112).take 32)
  let countAsTime := !(rec.getD 12 0 == 0)
  if name = [] ∨ offset < 0 ∨ count ≤ 0 then
    return none
  else
    let mk := fun (t : VariableType) => some
      { name := name, data_type := t, offset := offset.toNat,
        count := count.toNat, count_as_time := countAsTime,
        units := unit, description := desc : VariableInfo }
    if varType = 0 then return mk .Int8
    else if varType = 1 then return mk .Bool
    else if varType = 2 then return mk .Int32
    else if varType = 3 then return mk .Int32
    else if varType = 4 then return mk .Float32
    else if varType = 5 then return mk .Float64
    else return none

/-- Embeds `HashMap::insert`: replace the value when the key is present,
append the new binding otherwise (iteration order of the map is
irrelevant to everything proved here). -/
def insertReplace (m : List (List Nat × VariableInfo)) (k : List Nat)
    (v : VariableInfo) : List (List Nat × VariableInfo) :=
  if m.any (fun p => p.1 == k) then
    m.map fun p => if p.1 == k then (k, v) else p
  else m ++ [(k, v)]

/-- The reading loop of `extract_variable_schema`: `n` records remain,
the cursor is at byte `pos`; each iteration performs the 144-byte
`read_exact` (failing past the end of the data) and then the per-record
parse-or-skip. -/
def extractVars (data : List Nat) : Nat → Nat →
    List (List Nat × VariableInfo) → Option (List (List Nat × VariableInfo))
  | _, 0, acc => some acc
  | pos, n + 1, acc =>
    if pos + 144 ≤ data.length then
      match parseVarHeader ((data.drop pos).take 144) with
      | none => none
      | some none => extractVars data (pos + 144) n acc
      | some (some v) => extractVars data (pos + 144) n (insertReplace acc v.name v)
    else none

/-- Embeds the `i32 as u64` cast used by the seek (sign-extending). -/
def i32ToU64 (x : Int) : Nat := (x % 2 ^ 64).toNat

/-- Embeds `extract_variable_schema` (src/ibt/format.rs, lines 216 to
303). -/
def extract_variable_schema (data : List Nat) (h : IbtHeader) :
    Option VariableSchema :=
  if h.buf_len = 0 ∨ h.num_vars ≤ 0 then VariableSchema.new [] 0
  else do
    let vars ← extractVars data (i32ToU64 h.var_header_offset) h.num_vars.toNat []
    VariableSchema.new vars h.buf_len.toNat

/-! ### ibt/reader.rs -/

/-- Embeds `i32::checked_add`. -/
def checkedAddI32 (a b : Int) : Option Int :=
  if -(2 ^ 31) ≤ a + b ∧ a + b < 2 ^ 31 then some (a + b) else none

/-- Embeds `i32::checked_mul`. -/
def checkedMulI32 (a b : Int) : Option Int :=
  if -(2 ^ 31) ≤ a * b ∧ a * b < 2 ^ 31 then some (a * b) else none

/-- Embeds the `IbtReader` state (src/ibt/reader.rs, lines 41 to 51); the
path is dropped and the disk sub-header reduced to its one consumed
field. -/
structure IbtReader where
  data : List Nat
  current_position : Nat
  header : IbtHeader
  record_count : Int
  variable_schema : VariableSchema
  current_frame : Nat
  total_frames : Nat
  frame_data_start : Nat
  deriving DecidableEq, Repr

/-- Embeds `IbtReader::from_bytes_with_path` (src/ibt/reader.rs, lines 72
to 156): parse and validate the main header, parse the disk sub-header,
extract the schema, compute the frame-data start with checked arithmetic
(session info is only considered when `session_info_len > 0`), and derive
the total frame count from the remaining bytes.  The `record_count`
cross-check only logs, so it does not appear in the control flow. -/
def fromBytes (data : List Nat) : Option IbtReader := do
  let h ← parseIbtHeader data
  if h.validateB then
    let rc ← parseDiskSubHeader data
    let schema ← extract_variable_schema data h
    let vhs ← checkedMulI32 h.num_vars 144
    let vhe ← checkedAddI32 h.var_header_offset vhs
    let sie ← if 0 < h.session_info_len then
        checkedAddI32 h.session_info_offset h.session_info_len
      else pure vhe
    let fds := (max sie vhe).toNat
    if fds ≤ data.length then
      let remaining := data.length - fds
      let total := if 0 < h.buf_len then remaining / h.buf_len.toNat else 0
      return { data := data, current_position := fds, header := h,
               record_count := rc, variable_schema := schema,
               current_frame := 0, total_frames := total,
               frame_data_start := fds }
    else none
  else none

/-- Embeds `IbtReader::read_next_frame` (src/ibt/reader.rs, lines 262 to
298).  `Except.error ()` is the out-of-bounds parse error; `Except.ok
none` is end of stream.  A successful read returns the frame bytes, the
tick (`current_frame as u32`) and the session version
(`session_info_update as u32`), and advances the reader. -/
def read_next_frame (r : IbtReader) :
    Except Unit (Option (List Nat × Nat × Nat)) × IbtReader :=
  if r.total_frames ≤ r.current_frame then (.ok none, r)
  else if r.header.buf_len = 0 then (.ok none, r)
  else
    let frameSize := r.header.buf_len.toNat
    let startPos := r.current_position
    let endPos := startPos + frameSize
    if r.data.length < endPos then (.error (), r)
    else
      let frame := (r.data.drop startPos).take frameSize
      let tick := r.current_frame % 2 ^ 32
      let sver := (r.header.session_info_update % 2 ^ 32).toNat
      (.ok (some (frame, tick, sver)),
        { r with current_frame := r.current_frame + 1,
                 current_position := endPos })

/-! ### Helper definitions used only to state claims -/

/-- Kind test used to state the retryability claim: is the variant one of
`Connection`, `Timeout`, `Buffer`? -/
def TelemetryError.kindConnTimeoutBuffer : TelemetryError → Bool
  | .Connection _ _ => true
  | .Timeout _ => true
  | .Buffer _ _ _ => true
  | _ => false

/-- Kind test: is the variant the `cfg(windows)` `WindowsApi` one? -/
def TelemetryError.kindWindowsApi : TelemetryError → Bool
  | .WindowsApi _ _ => true
  | _ => false

/-! ### Theorems -/

theorem wrappingSub32_eq (a b : Nat) (ha : a < 2 ^ 32) (hb : b < 2 ^ 32) :
    wrappingSub32 a b = if b ≤ a then a - b else a + 2 ^ 32 - b := by
  unfold wrappingSub32
  by_cases h : b ≤ a
  · have h1 : a + 2 ^ 32 - b = (a - b) + 2 ^ 32 := by omega
    rw [h1, Nat.add_mod_right, Nat.mod_eq_of_lt (by omega), if_pos h]
  · rw [Nat.mod_eq_of_lt (by omega), if_neg h]

theorem wrappingSub32_add (a b : Nat) (ha : a < 2 ^ 32) (hb : b < 2 ^ 32)
    (hne : a ≠ b) : wrappingSub32 a b + wrappingSub32 b a = 2 ^ 32 := by
  rw [wrappingSub32_eq a b ha hb, wrappingSub32_eq b a hb ha]
  by_cases h : b ≤ a
  · rw [if_pos h, if_neg (by omega)]; omega
  · rw [if_neg h, if_pos (by omega)]; omega

/-- C7 counterexample: at `a = 2^31`, `b = 0` the two tick values are
distinct, yet neither direction is considered newer, so
`after(a,b) XOR after(b,a)` is `false`, refuting the claim that it is
`true` for all distinct pairs. -/
theorem C7_counterexample :
    (2 ^ 31 : Nat) ≠ 0 ∧ (2 ^ 31 : Nat) < 2 ^ 32 ∧
      tick_after_u32 (2 ^ 31) 0 = false ∧ tick_after_u32 0 (2 ^ 31) = false := by
  refine ⟨by norm_num, by norm_num, ?_, ?_⟩ <;> decide

/-- C7 (amended): for distinct `a, b` below `2^32`,
`after(a,b) = (wrapping_sub(a,b) < 2^31)`, and exactly one of `after(a,b)`
and `after(b,a)` holds except when the wrapped distance is exactly `2^31`,
in which case both are false. -/
theorem C7_tick_order (a b : Nat) (ha : a < 2 ^ 32) (hb : b < 2 ^ 32)
    (hne : a ≠ b) :
    tick_after_u32 a b = decide (wrappingSub32 a b < 2 ^ 31) ∧
      (wrappingSub32 a b ≠ 2 ^ 31 →
        xor (tick_after_u32 a b) (tick_after_u32 b a) = true) ∧
      (wrappingSub32 a b = 2 ^ 31 →
        tick_after_u32 a b = false ∧ tick_after_u32 b a = false) := by
  have hsum := wrappingSub32_add a b ha hb hne
  unfold tick_after_u32
  rw [if_neg hne, if_neg (Ne.symm hne)]
  refine ⟨rfl, ?_, ?_⟩
  · intro hnot
    rcases Nat.lt_or_ge (wrappingSub32 a b) (2 ^ 31) with h | h
    · have h2 : ¬ wrappingSub32 b a < 2 ^ 31 := by omega
      rw [decide_eq_true h, decide_eq_false h2]
      rfl
    · have h2 : wrappingSub32 b a < 2 ^ 31 := by omega
      have h3 : ¬ wrappingSub32 a b < 2 ^ 31 := by omega
      rw [decide_eq_true h2, decide_eq_false h3]
      rfl
  · intro heq
    have hba : wrappingSub32 b a = 2 ^ 31 := by omega
    constructor
    · rw [heq]; exact decide_eq_false (lt_irrefl _)
    · rw [hba]; exact decide_eq_false (lt_irrefl _)

/-- C7 witness: the amended statement instantiated at `a = 5`, `b = 3`. -/
theorem C7_tick_order_witness :
    tick_after_u32 5 3 = decide (wrappingSub32 5 3 < 2 ^ 31) ∧
      (wrappingSub32 5 3 ≠ 2 ^ 31 →
        xor (tick_after_u32 5 3) (tick_after_u32 3 5) = true) ∧
      (wrappingSub32 5 3 = 2 ^ 31 →
        tick_after_u32 5 3 = false ∧ tick_after_u32 3 5 = false) :=
  C7_tick_order 5 3 (by norm_num) (by norm_num) (by decide)

/-- C9 counterexample: the Windows-only `WindowsApi` error kind is marked
retryable by `is_retryable` although it is none of `Connection`,
`Timeout`, `Buffer`, refuting the claim that those three are exactly the
retryable kinds. -/
theorem C9_counterexample :
    (TelemetryError.WindowsApi () ()).is_retryable = true ∧
      (TelemetryError.WindowsApi () ()).kindConnTimeoutBuffer = false := by
  exact ⟨rfl, rfl⟩

/-- C9 (amended): `is_retryable` returns true exactly when the error kind
is `Connection`, `Timeout`, `Buffer`, or the Windows-only `WindowsApi`;
for every other kind it returns false. -/
theorem C9_is_retryable (e : TelemetryError) :
    e.is_retryable = (e.kindConnTimeoutBuffer || e.kindWindowsApi) := by
  cases e <;> rfl

/-- C2: with no collected item pending and the source merely not ready
(`srcEnded = false`, the drain loop stopped on `Poll::Pending`), a timer
tick makes `Throttle::poll_next` return `Poll::Ready(None)`, the
end-of-stream signal, instead of waiting for the next source value as the
specification requires.  The input is reachable: the watch-channel stream
feeding the throttle returns `Poll::Pending` whenever no new frame has
arrived within the interval. -/
theorem C2_throttle_ends_on_empty_tick :
    throttlePollNext (α := Nat) none true [] false = (.done, none) := rfl

theorem throttle_collected_spec {α : Type} (batch : List α)
    (init : Option α) :
    (batch.foldl (fun _ item => some item) init = none →
      init = none ∧ batch = []) ∧
    (∀ v, batch.foldl (fun _ item => some item) init = some v →
      List.Sublist [v] (init.toList ++ batch)) := by
  induction batch generalizing init with
  | nil =>
    refine ⟨fun h => ⟨h, rfl⟩, fun v h => ?_⟩
    simp only [List.foldl_nil] at h
    subst h
    simp
  | cons a t ih =>
    simp only [List.foldl_cons]
    refine ⟨fun h => absurd ((ih (some a)).1 h).1 (by simp), fun v h => ?_⟩
    have h2 := (ih (some a)).2 v h
    simp only [Option.toList_some] at h2
    exact h2.trans (List.sublist_append_right _ _)

theorem throttleRun_sublist {α : Type} (calls : List (ThrottleCall α))
    (p : Option α) :
    List.Sublist (throttleRun p calls).1 (p.toList ++ throttleInputs calls) := by
  induction calls generalizing p with
  | nil => simp [throttleRun, throttleInputs]
  | cons c cs ih =>
    simp only [throttleRun, throttleInputs, throttlePollNext]
    by_cases htick : c.tick
    · simp only [htick, if_pos, if_true]
      rcases hcol : c.batch.foldl (fun _ item => some item) p with _ | v
      · obtain ⟨hp, hb⟩ := (throttle_collected_spec c.batch p).1 hcol
        subst hp
        rw [hb]
        simpa using ih none
      · have h1 : List.Sublist [v] (p.toList ++ c.batch) :=
          (throttle_collected_spec c.batch p).2 v hcol
        have h2 := ih none
        simp only [Option.toList_none, List.nil_append] at h2
        have := List.Sublist.append h1 h2
        simpa [List.append_assoc] using this
    · simp only [htick, if_false, Bool.false_eq_true]
      simpa using ih p

/-- C8: over any observed sequence of `poll_next` calls, the item sequence
emitted by the throttle combinator (started with an empty `pending`
field, as `Throttle::new` does) is a sublist of the item sequence the
source stream produced, in source order: items may be dropped but never
duplicated or reordered. -/
theorem C8_throttle_no_reorder {α : Type} (calls : List (ThrottleCall α)) :
    List.Sublist (throttleRun (none : Option α) calls).1
      (throttleInputs calls) := by
  simpa using throttleRun_sublist calls none

/-- C10: for a positive source frequency, `Max(hz)` with `hz ≥ 1`
normalizes to `Native` exactly when `hz ≥ source_hz`, and the throttle
interval is exactly `1/hz` seconds exactly when `hz < source_hz` (both
for `UpdateRate::throttle_interval` and for the interval construction in
`ReplayConnection::subscribe`); while `Max(0)` never normalizes to
`Native`, so its interval computation divides `1.0` by `0.0` and
`Duration::from_secs_f64` panics on the non-finite result. -/
theorem C10_update_rate (sourceHz : ℚ) (hpos : 0 < sourceHz) :
    (∀ hz : Nat, 1 ≤ hz →
      ((UpdateRate.Max hz).normalize sourceHz = .Native ↔ sourceHz ≤ (hz : ℚ)) ∧
      ((UpdateRate.Max hz).throttle_interval sourceHz = .ok (some (1 / (hz : ℚ))) ↔
        (hz : ℚ) < sourceHz) ∧
      (subscribeThrottleSetup (.Max hz) sourceHz = .ok (some (1 / (hz : ℚ))) ↔
        (hz : ℚ) < sourceHz)) ∧
    ((UpdateRate.Max 0).normalize sourceHz ≠ .Native ∧
      (UpdateRate.Max 0).throttle_interval sourceHz = .error () ∧
      subscribeThrottleSetup (.Max 0) sourceHz = .error ()) := by
  have hdiv : ∀ hz : Nat, 1 ≤ hz →
      durationFromSecsF64 (f64OneDiv hz) = some (1 / (hz : ℚ)) := by
    intro hz h1
    have hz0 : hz ≠ 0 := by omega
    have : (0 : ℚ) ≤ 1 / (hz : ℚ) := by positivity
    simp [f64OneDiv, durationFromSecsF64, hz0, this]
  constructor
  · intro hz h1
    by_cases hle : sourceHz ≤ (hz : ℚ)
    · refine ⟨⟨fun _ => hle, fun _ => ?_⟩, ?_, ?_⟩
      · simp [UpdateRate.normalize, hle]
      all_goals
        constructor
        · intro h
          simp [UpdateRate.throttle_interval, subscribeThrottleSetup,
            UpdateRate.normalize, hle] at h
        · intro h; exact absurd hle (not_le.mpr h)
    · have hlt : (hz : ℚ) < sourceHz := not_le.mp hle
      refine ⟨⟨fun h => ?_, fun h => absurd h hle⟩, ?_, ?_⟩
      · simp [UpdateRate.normalize, hle] at h
      all_goals
        simp [UpdateRate.throttle_interval, subscribeThrottleSetup,
          UpdateRate.normalize, hle, hdiv hz h1, hlt]
  · have hle : ¬ sourceHz ≤ (0 : ℚ) := not_le.mpr hpos
    refine ⟨?_, ?_, ?_⟩
    · simp [UpdateRate.normalize, hle]
    · simp [UpdateRate.throttle_interval, UpdateRate.normalize, hle,
        f64OneDiv, durationFromSecsF64]
    · simp [subscribeThrottleSetup, UpdateRate.normalize, hle,
        f64OneDiv, durationFromSecsF64]

/-- C10 witness: the statement instantiated at `source_hz = 60`,
`hz = 5`. -/
theorem C10_update_rate_witness :
    (((UpdateRate.Max 5).normalize 60 = .Native ↔ (60 : ℚ) ≤ (5 : Nat)) ∧
      ((UpdateRate.Max 5).throttle_interval 60 = .ok (some (1 / ((5 : Nat) : ℚ))) ↔
        ((5 : Nat) : ℚ) < 60) ∧
      (subscribeThrottleSetup (.Max 5) 60 = .ok (some (1 / ((5 : Nat) : ℚ))) ↔
        ((5 : Nat) : ℚ) < 60)) ∧
    ((UpdateRate.Max 0).normalize 60 ≠ .Native ∧
      (UpdateRate.Max 0).throttle_interval 60 = .error () ∧
      subscribeThrottleSetup (.Max 0) 60 = .error ()) :=
  ⟨(C10_update_rate 60 (by norm_num)).1 5 (by norm_num),
   (C10_update_rate 60 (by norm_num)).2⟩

/-- C6: every schema accepted by `VariableSchema::new` satisfies, for each
stored entry, the frame-bounds inequality, a count of at least one, and
agreement between the map key and the descriptor name. -/
theorem C6_schema_invariants (vs : List (List Nat × VariableInfo))
    (fs : Nat) (s : VariableSchema) (hnew : VariableSchema.new vs fs = some s) :
    ∀ k v, (k, v) ∈ s.vars →
      v.offset + v.data_type.size * v.count ≤ s.frame_size ∧
        1 ≤ v.count ∧ k = v.name := by
  intro k v hmem
  unfold VariableSchema.new at hnew
  by_cases hval : (VariableSchema.mk vs fs).validate
  · rw [if_pos hval] at hnew
    cases hnew
    have hall := List.all_eq_true.mp hval (k, v) hmem
    simp only [Bool.and_eq_true, Bool.not_eq_true', beq_iff_eq,
      decide_eq_true_eq, Nat.succ_le_iff] at hall ⊢
    obtain ⟨⟨hcount, hname⟩, hfit⟩ := hall
    exact ⟨hfit, Nat.pos_of_ne_zero (by simpa using hcount), hname.symm⟩
  · rw [if_neg hval] at hnew
    cases hnew

/-- Entry used by the C6 witness schema. -/
def c6info : VariableInfo :=
  { name := [82, 80, 77], data_type := .Float32, offset := 4, count := 2,
    count_as_time := false, units := [], description := [] }

set_option maxRecDepth 4000 in
/-- C6 witness: the invariants instantiated on a concrete accepted
schema. -/
theorem C6_schema_invariants_witness :
    c6info.offset + c6info.data_type.size * c6info.count ≤
        (VariableSchema.mk [([82, 80, 77], c6info)] 12).frame_size ∧
      1 ≤ c6info.count ∧ [82, 80, 77] = c6info.name :=
  C6_schema_invariants [([82, 80, 77], c6info)] 12
    (VariableSchema.mk [([82, 80, 77], c6info)] 12) (by decide)
    [82, 80, 77] c6info (by decide)

/-- The type-tag table of the amended C1 claim, stated in its own words:
0 maps to `Int8` (the 8-bit `irsdk_char` cell), 1 to `Bool`, 2 to
`Int32`, 3 (the bitfield tag) also to `Int32`, 4 to `Float32`, 5 to
`Float64`; every other tag means the variable is dropped. -/
def claimTypeMap (t : Int) : Option VariableType :=
  if t = 0 then some .Int8
  else if t = 1 then some .Bool
  else if t = 2 then some .Int32
  else if t = 3 then some .Int32
  else if t = 4 then some .Float32
  else if t = 5 then some .Float64
  else none

/-- Little-endian encoding of a natural below 2 to the 32 as four
bytes (a test-data helper). -/
def le4 (n : Nat) : List Nat :=
  [n % 256, n / 256 % 256, n / 65536 % 256, n / 16777216 % 256]

/-- A 144-byte variable-header record with type tag 0 (char), offset 0,
count 1, name consisting of the single byte 97. -/
def c1recTag0 : List Nat :=
  le4 0 ++ le4 0 ++ le4 1 ++ [0, 0, 0, 0] ++
    ([97] ++ List.replicate 31 0) ++ List.replicate 64 0 ++
    List.replicate 32 0

/-- A 144-byte variable-header record with type tag 3 (bitfield), offset
0, count 1, name consisting of the single byte 97. -/
def c1recTag3 : List Nat :=
  le4 3 ++ le4 0 ++ le4 1 ++ [0, 0, 0, 0] ++
    ([97] ++ List.replicate 31 0) ++ List.replicate 64 0 ++
    List.replicate 32 0

/-- C1 counterexample: a record with type tag 0 produces a descriptor of
type `Int8`, not `Char`, and a record with type tag 3 produces `Int32`,
not `BitField`, refuting the mapping 0 to Char and 3 to BitField stated
by the claim. -/
theorem C1_counterexample :
    parseVarHeader c1recTag0 = some (some
      { name := [97], data_type := .Int8, offset := 0, count := 1,
        count_as_time := false, units := [], description := [] }) ∧
      VariableType.Int8 ≠ VariableType.Char ∧
      parseVarHeader c1recTag3 = some (some
        { name := [97], data_type := .Int32, offset := 0, count := 1,
          count_as_time := false, units := [], description := [] }) ∧
      VariableType.Int32 ≠ VariableType.BitField := by
  refine ⟨by decide, by decide, by decide, by decide⟩

/-- C1 (amended): for every 144-byte variable-header record, the parser
skips the record silently when the NUL-truncated name is empty, the
offset is negative, or the count is nonpositive; otherwise the type tag
is mapped 0 to Int8, 1 to Bool, 2 to Int32, 3 to Int32, 4 to Float32,
5 to Float64 in the resulting descriptor, any other tag dropping the
record, with the descriptor carrying the decoded name, offset, count,
count-as-time flag, units and description. -/
theorem C1_var_header (rec : List Nat) (h144 : rec.length = 144)
    (t o c : Int) (ht : parse_i32_le rec 0 = some t)
    (ho : parse_i32_le rec 4 = some o) (hc : parse_i32_le rec 8 = some c) :
    parseVarHeader rec = some (
      if nulTerminated ((rec.drop 16).take 32) = [] ∨ o < 0 ∨ c ≤ 0 then
        none
      else (claimTypeMap t).map fun ty =>
        { name := nulTerminated ((rec.drop 16).take 32), data_type := ty,
          offset := o.toNat, count := c.toNat,
          count_as_time := !(rec.getD 12 0 == 0),
          units := nulTerminated ((rec.drop 112).take 32),
          description := nulTerminated ((rec.drop 48).take 64) }) := by
  unfold parseVarHeader claimTypeMap
  rw [ht, ho, hc]
  simp only [Option.bind_eq_bind, Option.some_bind, Option.pure_def]
  by_cases hskip : nulTerminated ((rec.drop 16).take 32) = [] ∨ o < 0 ∨ c ≤ 0
  · simp [hskip]
  · rw [if_neg hskip, if_neg hskip]
    by_cases h0 : t = 0
    · rw [if_pos h0, if_pos h0]; rfl
    rw [if_neg h0, if_neg h0]
    by_cases h1 : t = 1
    · rw [if_pos h1, if_pos h1]; rfl
    rw [if_neg h1, if_neg h1]
    by_cases h2 : t = 2
    · rw [if_pos h2, if_pos h2]; rfl
    rw [if_neg h2, if_neg h2]
    by_cases h3 : t = 3
    · rw [if_pos h3, if_pos h3]; rfl
    rw [if_neg h3, if_neg h3]
    by_cases h4 : t = 4
    · rw [if_pos h4, if_pos h4]; rfl
    rw [if_neg h4, if_neg h4]
    by_cases h5 : t = 5
    · rw [if_pos h5, if_pos h5]; rfl
    rw [if_neg h5, if_neg h5]; rfl

/-- A 144-byte variable-header record with type tag 4 (float), offset 8,
count 2, count-as-time set, name bytes 82 80 77 and unit byte 109. -/
def c1recTag4 : List Nat :=
  le4 4 ++ le4 8 ++ le4 2 ++ [1, 0, 0, 0] ++
    ([82, 80, 77] ++ List.replicate 29 0) ++ List.replicate 64 0 ++
    ([109] ++ List.replicate 31 0)

/-- C1 witness: the amended statement instantiated on a concrete
record. -/
theorem C1_var_header_witness :
    parseVarHeader c1recTag4 = some (
      if nulTerminated ((c1recTag4.drop 16).take 32) = [] ∨ (8 : Int) < 0 ∨
          (2 : Int) ≤ 0 then
        none
      else (claimTypeMap 4).map fun ty =>
        { name := nulTerminated ((c1recTag4.drop 16).take 32),
          data_type := ty, offset := (8 : Int).toNat,
          count := (2 : Int).toNat,
          count_as_time := !(c1recTag4.getD 12 0 == 0),
          units := nulTerminated ((c1recTag4.drop 112).take 32),
          description := nulTerminated ((c1recTag4.drop 48).take 64) }) :=
  C1_var_header c1recTag4 (by decide) 4 8 2 (by decide) (by decide)
    (by decide)

/-- The reader state after `n` calls to `read_next_frame`. -/
def readerAt (r : IbtReader) : Nat → IbtReader
  | 0 => r
  | n + 1 => (read_next_frame (readerAt r n)).2

theorem checkedMulI32_eq {a b v : Int} (h : checkedMulI32 a b = some v) :
    v = a * b := by
  unfold checkedMulI32 at h
  split at h
  · cases h; rfl
  · cases h

theorem checkedAddI32_eq {a b v : Int} (h : checkedAddI32 a b = some v) :
    v = a + b := by
  unfold checkedAddI32 at h
  split at h
  · cases h; rfl
  · cases h

theorem fromBytes_fields (data : List Nat) (r : IbtReader)
    (h : fromBytes data = some r) :
    r.data = data ∧ r.current_frame = 0 ∧
      r.current_position = r.frame_data_start ∧
      r.frame_data_start ≤ data.length ∧
      parseIbtHeader data = some r.header ∧
      (0 < r.header.session_info_len →
        r.frame_data_start =
          (max (r.header.session_info_offset + r.header.session_info_len)
            (r.header.var_header_offset + r.header.num_vars * 144)).toNat) ∧
      (r.header.session_info_len ≤ 0 →
        r.frame_data_start =
          (r.header.var_header_offset + r.header.num_vars * 144).toNat) ∧
      r.total_frames = (if 0 < r.header.buf_len then
        (data.length - r.frame_data_start) / r.header.buf_len.toNat else 0) := by
  simp only [fromBytes, Option.bind_eq_bind] at h
  rw [Option.bind_eq_some] at h
  obtain ⟨h0, hh, h⟩ := h
  by_cases hv : h0.validateB
  swap
  · rw [if_neg hv] at h; cases h
  rw [if_pos hv] at h
  rw [Option.bind_eq_some] at h
  obtain ⟨rc, hrc, h⟩ := h
  rw [Option.bind_eq_some] at h
  obtain ⟨schema, hsch, h⟩ := h
  rw [Option.bind_eq_some] at h
  obtain ⟨vhs, hvhs, h⟩ := h
  rw [Option.bind_eq_some] at h
  obtain ⟨vhe, hvhe, h⟩ := h
  have evhs := checkedMulI32_eq hvhs
  have evhe := checkedAddI32_eq hvhe
  by_cases hsil : 0 < h0.session_info_len
  · rw [if_pos hsil] at h
    rw [Option.bind_eq_some] at h
    obtain ⟨sie, hsie, h⟩ := h
    have esie := checkedAddI32_eq hsie
    by_cases hle : (max sie vhe).toNat ≤ data.length
    swap
    · rw [if_neg hle] at h; cases h
    rw [if_pos hle] at h
    simp only [Option.pure_def, Option.some.injEq] at h
    subst h
    refine ⟨rfl, rfl, rfl, hle, hh, ?_, ?_, rfl⟩
    · intro _
      subst esie; subst evhe; subst evhs
      rfl
    · intro hsil2
      exact absurd hsil (not_lt.mpr hsil2)
  · rw [if_neg hsil] at h
    simp only [Option.pure_def, Option.some_bind] at h
    by_cases hle : (max vhe vhe).toNat ≤ data.length
    swap
    · rw [if_neg hle] at h; cases h
    rw [if_pos hle] at h
    simp only [Option.some.injEq] at h
    subst h
    refine ⟨rfl, rfl, rfl, by simpa using hle, hh, ?_, ?_, rfl⟩
    · intro hsil2
      exact absurd hsil2 hsil
    · intro _
      subst evhe; subst evhs
      simp

theorem read_next_frame_stay (r : IbtReader)
    (h : r.total_frames ≤ r.current_frame) :
    read_next_frame r = (.ok none, r) := by
  unfold read_next_frame
  rw [if_pos h]

theorem read_next_frame_advance (r : IbtReader)
    (h1 : r.current_frame < r.total_frames) (h2 : ¬ r.header.buf_len = 0)
    (h3 : r.current_position + r.header.buf_len.toNat ≤ r.data.length) :
    read_next_frame r = (.ok (some
      ((r.data.drop r.current_position).take r.header.buf_len.toNat,
       r.current_frame % 2 ^ 32,
       (r.header.session_info_update % 2 ^ 32).toNat)),
      { r with current_frame := r.current_frame + 1,
               current_position :=
                 r.current_position + r.header.buf_len.toNat }) := by
  unfold read_next_frame
  rw [if_neg (not_le.mpr h1), if_neg h2, if_neg (not_lt.mpr h3)]

theorem readerAt_state (r : IbtReader) (hbuf : ¬ r.header.buf_len = 0)
    (hcf : r.current_frame = 0) (hcp : r.current_position = r.frame_data_start)
    (hbound : r.frame_data_start +
      r.total_frames * r.header.buf_len.toNat ≤ r.data.length) :
    ∀ i, (readerAt r i).current_frame = min i r.total_frames ∧
      (readerAt r i).current_position = r.frame_data_start +
        min i r.total_frames * r.header.buf_len.toNat ∧
      (readerAt r i).data = r.data ∧ (readerAt r i).header = r.header ∧
      (readerAt r i).total_frames = r.total_frames ∧
      (readerAt r i).frame_data_start = r.frame_data_start := by
  intro i
  induction i with
  | zero =>
    simp [readerAt, hcf, hcp]
  | succ n ih =>
    obtain ⟨icf, icp, idata, ihdr, itot, ifds⟩ := ih
    by_cases hlt : n < r.total_frames
    · have hmin : min n r.total_frames = n := min_eq_left (le_of_lt hlt)
      have hmin1 : min (n + 1) r.total_frames = n + 1 := min_eq_left hlt
      have hmul : (n + 1) * r.header.buf_len.toNat ≤
          r.total_frames * r.header.buf_len.toNat :=
        Nat.mul_le_mul_right _ hlt
      have hadv := read_next_frame_advance (readerAt r n)
        (by rw [icf, itot, hmin]; exact hlt)
        (by rw [ihdr]; exact hbuf)
        (by rw [icp, idata, ihdr, hmin]
            have e : r.frame_data_start + n * r.header.buf_len.toNat +
                r.header.buf_len.toNat =
                r.frame_data_start + (n + 1) * r.header.buf_len.toNat := by
              ring
            omega)
      have hstep : readerAt r (n + 1) = (read_next_frame (readerAt r n)).2 :=
        rfl
      rw [hstep, hadv]
      refine ⟨?_, ?_, idata, ihdr, itot, ifds⟩
      · show (readerAt r n).current_frame + 1 = min (n + 1) r.total_frames
        rw [icf, hmin, hmin1]
      · show (readerAt r n).current_position +
            (readerAt r n).header.buf_len.toNat =
            r.frame_data_start +
              min (n + 1) r.total_frames * r.header.buf_len.toNat
        rw [icp, ihdr, hmin, hmin1]
        ring
    · have htot : r.total_frames ≤ n := le_of_not_lt hlt
      have hmin : min n r.total_frames = r.total_frames := min_eq_right htot
      have hmin1 : min (n + 1) r.total_frames = r.total_frames :=
        min_eq_right (by omega)
      have hstay := read_next_frame_stay (readerAt r n)
        (by rw [icf, itot, hmin])
      have hstep : readerAt r (n + 1) = (read_next_frame (readerAt r n)).2 :=
        rfl
      rw [hstep, hstay]
      exact ⟨by rw [icf, hmin, hmin1], by rw [icp, hmin, hmin1],
        idata, ihdr, itot, ifds⟩

/-- C3 (amended): for every archive accepted by the reader with
`buf_len > 0` (and a file smaller than 2^32 bytes so that the `u32` tick
is exact), `frame_data_start` equals
`max(var_header_offset + num_vars*144, session_info_offset +
session_info_len)` when `session_info_len > 0` and
`var_header_offset + num_vars*144` when `session_info_len = 0`;
`total_frames` equals `(file_len - frame_data_start) / buf_len`
(computed from the file size, never from the sub-header record count);
`read_next_frame` returns the frames in order with ticks
`0, 1, ..., total_frames - 1` and then `None` on every later call; and
when `file_len - frame_data_start = 10 * buf_len` the total is 10. -/
theorem C3_archive_frames (data : List Nat) (r : IbtReader)
    (h : fromBytes data = some r) (hbuf : 0 < r.header.buf_len)
    (hlen : data.length < 2 ^ 32) :
    (0 < r.header.session_info_len →
      r.frame_data_start =
        (max (r.header.var_header_offset + r.header.num_vars * 144)
          (r.header.session_info_offset + r.header.session_info_len)).toNat) ∧
    (r.header.session_info_len ≤ 0 →
      r.frame_data_start =
        (r.header.var_header_offset + r.header.num_vars * 144).toNat) ∧
    r.total_frames =
      (data.length - r.frame_data_start) / r.header.buf_len.toNat ∧
    (data.length - r.frame_data_start = 10 * r.header.buf_len.toNat →
      r.total_frames = 10) ∧
    (∀ i, i < r.total_frames →
      (read_next_frame (readerAt r i)).1 = .ok (some
        ((data.drop (r.frame_data_start + i * r.header.buf_len.toNat)).take
          r.header.buf_len.toNat,
         i, (r.header.session_info_update % 2 ^ 32).toNat))) ∧
    (∀ i, r.total_frames ≤ i →
      (read_next_frame (readerAt r i)).1 = .ok none) := by
  obtain ⟨hdata, hcf, hcp, hfds, hhdr, hfds1, hfds2, htot⟩ :=
    fromBytes_fields data r h
  rw [if_pos hbuf] at htot
  have hbufN : 0 < r.header.buf_len.toNat := by omega
  have hbufNe : ¬ r.header.buf_len = 0 := by omega
  have hdivle : (data.length - r.frame_data_start) /
      r.header.buf_len.toNat * r.header.buf_len.toNat ≤
      data.length - r.frame_data_start := Nat.div_mul_le_self _ _
  have hbound : r.frame_data_start +
      r.total_frames * r.header.buf_len.toNat ≤ r.data.length := by
    rw [hdata, htot]; omega
  have hstate := readerAt_state r hbufNe hcf hcp hbound
  have htotle : r.total_frames ≤ data.length := by
    rw [htot]
    calc (data.length - r.frame_data_start) / r.header.buf_len.toNat ≤
        data.length - r.frame_data_start := Nat.div_le_self _ _
      _ ≤ data.length := Nat.sub_le _ _
  refine ⟨?_, ?_, htot, ?_, ?_, ?_⟩
  · intro hsil; rw [hfds1 hsil, max_comm]
  · exact hfds2
  · intro h10; rw [htot, h10, Nat.mul_div_cancel _ hbufN]
  · intro i hi
    obtain ⟨icf, icp, idata, ihdr, itot, ifds⟩ := hstate i
    have hmin : min i r.total_frames = i := min_eq_left (le_of_lt hi)
    have hadv := read_next_frame_advance (readerAt r i)
      (by rw [icf, itot, hmin]; exact hi)
      (by rw [ihdr]; exact hbufNe)
      (by rw [icp, idata, ihdr, hmin]
          have hmul : (i + 1) * r.header.buf_len.toNat ≤
              r.total_frames * r.header.buf_len.toNat :=
            Nat.mul_le_mul_right _ hi
          have e : r.frame_data_start + i * r.header.buf_len.toNat +
              r.header.buf_len.toNat =
              r.frame_data_start + (i + 1) * r.header.buf_len.toNat := by
            ring
          omega)
    rw [hadv]
    have himod : i % 2 ^ 32 = i := Nat.mod_eq_of_lt (by omega)
    show Except.ok (some ((readerAt r i).data.drop
        (readerAt r i).current_position |>.take
        (readerAt r i).header.buf_len.toNat,
      (readerAt r i).current_frame % 2 ^ 32,
      ((readerAt r i).header.session_info_update % 2 ^ 32).toNat)) = _
    rw [icf, icp, idata, ihdr, hmin, himod, hdata]
  · intro i hi
    obtain ⟨icf, _, _, _, itot, _⟩ := hstate i
    have hmin : min i r.total_frames = r.total_frames := min_eq_right hi
    have := read_next_frame_stay (readerAt r i) (by rw [icf, itot, hmin])
    rw [this]

/-- A 200-byte archive: version 2, tick rate 60, metadata version 7,
session info of 4 bytes at offset 176, no variables, variable headers at
offset 176, one buffer of 2 bytes per frame, followed by the 32-byte
disk sub-header (zeros), the 4 session-info bytes, and 20 bytes of frame
data, so that exactly 10 frames fit. -/
def c3data : List Nat :=
  le4 2 ++ le4 0 ++ le4 60 ++ le4 7 ++ le4 4 ++ le4 176 ++ le4 0 ++
    le4 176 ++ le4 1 ++ le4 2 ++ List.replicate 104 0 ++
    List.replicate 32 0 ++ [9, 9, 9, 9] ++ List.replicate 20 5

/-- The reader the archive `c3data` opens to. -/
def c3reader : IbtReader :=
  { data := c3data, current_position := 180,
    header := { version := 2, status := 0, tick_rate := 60,
                session_info_update := 7, session_info_len := 4,
                session_info_offset := 176, num_vars := 0,
                var_header_offset := 176, num_buf := 1, buf_len := 2 },
    record_count := 0, variable_schema := ⟨[], 0⟩,
    current_frame := 0, total_frames := 10, frame_data_start := 180 }

/-- C3 witness: the amended statement instantiated on the concrete
10-frame archive `c3data`. -/
theorem C3_archive_frames_witness :
    (0 < c3reader.header.session_info_len →
      c3reader.frame_data_start =
        (max (c3reader.header.var_header_offset + c3reader.header.num_vars * 144)
          (c3reader.header.session_info_offset +
            c3reader.header.session_info_len)).toNat) ∧
    (c3reader.header.session_info_len ≤ 0 →
      c3reader.frame_data_start =
        (c3reader.header.var_header_offset +
          c3reader.header.num_vars * 144).toNat) ∧
    c3reader.total_frames =
      (c3data.length - c3reader.frame_data_start) /
        c3reader.header.buf_len.toNat ∧
    (c3data.length - c3reader.frame_data_start =
        10 * c3reader.header.buf_len.toNat → c3reader.total_frames = 10) ∧
    (∀ i, i < c3reader.total_frames →
      (read_next_frame (readerAt c3reader i)).1 = .ok (some
        ((c3data.drop (c3reader.frame_data_start +
            i * c3reader.header.buf_len.toNat)).take
          c3reader.header.buf_len.toNat,
         i, (c3reader.header.session_info_update % 2 ^ 32).toNat))) ∧
    (∀ i, c3reader.total_frames ≤ i →
      (read_next_frame (readerAt c3reader i)).1 = .ok none) :=
  C3_archive_frames c3data c3reader (by decide) (by decide) (by decide)

/-- A 310-byte archive accepted by the reader: version 2, metadata
version 1, `session_info_len = 0` with `session_info_offset = 300` (the
empty metadata region lies within the file), no variables, variable
headers at offset 176, one-byte frames, and 134 bytes of frame data. -/
def cexC3data : List Nat :=
  le4 2 ++ le4 0 ++ le4 60 ++ le4 1 ++ le4 0 ++ le4 300 ++ le4 0 ++
    le4 176 ++ le4 1 ++ le4 1 ++ List.replicate 104 0 ++
    List.replicate 32 0 ++ List.replicate 134 7

/-- The reader the archive `cexC3data` opens to. -/
def cexC3reader : IbtReader :=
  { data := cexC3data, current_position := 176,
    header := { version := 2, status := 0, tick_rate := 60,
                session_info_update := 1, session_info_len := 0,
                session_info_offset := 300, num_vars := 0,
                var_header_offset := 176, num_buf := 1, buf_len := 1 },
    record_count := 0, variable_schema := ⟨[], 0⟩,
    current_frame := 0, total_frames := 134, frame_data_start := 176 }

/-- C3 counterexample: an archive the reader accepts, with positive
`buf_len` and every declared region inside the file, on which
`frame_data_start` is 176 and `total_frames` is 134, while the formula
`max(var_header_offset + num_vars*144, session_info_offset +
session_info_len)` of the claim gives 300 and would make the frame count
10: when `session_info_len = 0` the code ignores `session_info_offset`
entirely, so the claim fails as stated. -/
theorem C3_counterexample :
    fromBytes cexC3data = some cexC3reader ∧
      0 < cexC3reader.header.buf_len ∧
      cexC3reader.header.session_info_offset +
        cexC3reader.header.session_info_len ≤ (cexC3data.length : Int) ∧
      (max (cexC3reader.header.var_header_offset +
          cexC3reader.header.num_vars * 144)
        (cexC3reader.header.session_info_offset +
          cexC3reader.header.session_info_len)).toNat = 300 ∧
      cexC3reader.frame_data_start = 176 ∧
      cexC3reader.total_frames = 134 ∧
      (cexC3data.length - 300) / cexC3reader.header.buf_len.toNat = 10 :=
  ⟨by decide, by decide, by decide, by decide, by decide, by decide,
   by decide⟩

/-! ### yaml_utils.rs and schema/session/cache.rs

Text is embedded as `List Char`.  Rust slices strings at byte offsets, but
every offset the preprocessor uses lies on a character boundary (pattern
positions, whitespace scans), so character indexing is faithful. -/

/-- The apostrophe character (codepoint 39). -/
def quoteCh : Char := Char.ofNat 39

/-- The double-quote character (codepoint 34). -/
def dquoteCh : Char := Char.ofNat 34

/-- The backslash character (codepoint 92). -/
def backslashCh : Char := Char.ofNat 92

/-- Embeds `char::is_control`: the Unicode Cc category. -/
def rustIsControl (c : Char) : Bool :=
  c.toNat ≤ 0x1F || (0x7F ≤ c.toNat && c.toNat ≤ 0x9F)

/-- Embeds `char::is_whitespace`: the Unicode White_Space property. -/
def rustIsWhitespace (c : Char) : Bool :=
  c.toNat = 9 || c.toNat = 10 || c.toNat = 11 || c.toNat = 12 ||
    c.toNat = 13 || c.toNat = 32 || c.toNat = 0x85 || c.toNat = 0xA0 ||
    c.toNat = 0x1680 || (0x2000 ≤ c.toNat && c.toNat ≤ 0x200A) ||
    c.toNat = 0x2028 || c.toNat = 0x2029 || c.toNat = 0x202F ||
    c.toNat = 0x205F || c.toNat = 0x3000

/-- Strips trailing Unicode whitespace (the right half of `str::trim`). -/
def trimRight (s : List Char) : List Char :=
  (s.reverse.dropWhile rustIsWhitespace).reverse

/-- Embeds `str::trim`: strip Unicode whitespace from both ends. -/
def rustTrim (s : List Char) : List Char :=
  trimRight (s.dropWhile rustIsWhitespace)

/-- The control-character ranges removed by
`yaml_utils::preprocess_iracing_yaml`: `\x00..=\x08`, `\x0B..=\x0C`,
`\x0E..=\x1F`. -/
def utilsControlRange (c : Char) : Bool :=
  c.toNat ≤ 8 || (11 ≤ c.toNat && c.toNat ≤ 12) ||
    (14 ≤ c.toNat && c.toNat ≤ 31)

/-- One iteration of the character loop of
`yaml_utils::preprocess_iracing_yaml` (src/yaml_utils.rs, lines 26 to 44):
the state is (output so far, `in_quotes`, `prev_char`).  A double quote
not preceded by a backslash toggles `in_quotes` and is pushed; characters
in the control ranges are skipped (the `continue` also skips the
`prev_char` update); every other character is pushed. -/
def yamlUtilsStep (st : List Char × Bool × Char) (ch : Char) :
    List Char × Bool × Char :=
  if ch = dquoteCh ∧ st.2.2 ≠ backslashCh then (st.1 ++ [ch], !st.2.1, ch)
  else if utilsControlRange ch then st
  else (st.1 ++ [ch], st.2.1, ch)

/-- Embeds `yaml_utils::preprocess_iracing_yaml` (src/yaml_utils.rs,
lines 21 to 54): run the character loop (with `prev_char` initialized to
a space), then fail when the result trims to empty. -/
def preprocess_iracing_yaml_utils (yaml : List Char) : Option (List Char) :=
  let st := yaml.foldl yamlUtilsStep ([], false, ' ')
  if rustTrim st.1 = [] then none else some st.1

/-- The keep-predicate of the first pass of
`SessionInfoParser::preprocess_iracing_yaml`: a character survives unless
it is a control character other than newline, carriage return, tab. -/
def keepCacheChar (c : Char) : Bool :=
  !(rustIsControl c && c != '\n' && c != '\r' && c != '\t')

/-- Splits a text at every newline, keeping empty segments: `n` newlines
give `n + 1` segments. -/
def splitOnNL : List Char → List (List Char)
  | [] => [[]]
  | c :: t =>
    if c = '\n' then [] :: splitOnNL t
    else
      match splitOnNL t with
      | [] => [[c]]
      | s :: rest => (c :: s) :: rest

/-- Strips one trailing carriage return, as `str::lines` does per line. -/
def stripTrailingCR (l : List Char) : List Char :=
  if l.getLast? = some '\r' then l.dropLast else l

/-- Embeds `str::lines`: split at newlines, drop the final empty segment
produced by a trailing newline, strip one trailing carriage return from
each line. -/
def rustLines (s : List Char) : List (List Char) :=
  let segs := splitOnNL s
  (if segs.getLast? = some [] then segs.dropLast else segs).map
    stripTrailingCR

/-- Embeds `Vec::join("\n")`. -/
def joinNL : List (List Char) → List Char
  | [] => []
  | [p] => p
  | p :: rest => p ++ '\n' :: joinNL rest

/-- Embeds `str::find(&str)`: index of the leftmost occurrence of the
pattern (0 for an empty pattern). -/
def findSub : List Char → List Char → Option Nat
  | [], pat => if pat.isPrefixOf [] then some 0 else none
  | a :: t, pat =>
    if pat.isPrefixOf (a :: t) then some 0
    else (findSub t pat).map (· + 1)

/-- Embeds `str::find(|c| !c.is_whitespace())`: index of the first
non-whitespace character. -/
def findNonWs : List Char → Option Nat
  | [] => none
  | c :: t =>
    if rustIsWhitespace c then (findNonWs t).map (· + 1) else some 0

/-- Embeds `str::replace('\x27', "\x27\x27")`: double every
apostrophe. -/
def escapeQuotes : List Char → List Char
  | [] => []
  | c :: t =>
    if c = quoteCh then quoteCh :: quoteCh :: escapeQuotes t
    else c :: escapeQuotes t

/-- The `PROBLEMATIC_KEYS` array of
`SessionInfoParser::preprocess_iracing_yaml` (src/schema/session/cache.rs,
lines 135 to 142), each key carrying its trailing colon. -/
def problematicKeys : List (List Char) :=
  [ ['A', 'b', 'b', 'r', 'e', 'v', 'N', 'a', 'm', 'e', ':'],
    ['T', 'e', 'a', 'm', 'N', 'a', 'm', 'e', ':'],
    ['U', 's', 'e', 'r', 'N', 'a', 'm', 'e', ':'],
    ['I', 'n', 'i', 't', 'i', 'a', 'l', 's', ':'],
    ['D', 'r', 'i', 'v', 'e', 'r', 'S', 'e', 't', 'u', 'p', 'N', 'a',
     'm', 'e', ':'],
    ['C', 'a', 'r', 'D', 'e', 's', 'i', 'g', 'n', 'S', 't', 'r', ':'] ]

/-- The key loop of the per-line pass: the first key (in array order)
found anywhere in the line, with the position of its leftmost occurrence;
the loop breaks after the first found key whether or not the value gets
rewritten. -/
def firstFoundKey (l : List Char) :
    List (List Char) → Option (List Char × Nat)
  | [] => none
  | k :: ks =>
    match findSub l k with
    | some p => some (k, p)
    | none => firstFoundKey l ks

/-- Embeds the per-line body of
`SessionInfoParser::preprocess_iracing_yaml` (src/schema/session/cache.rs,
lines 157 to 186): find the first problematic key, locate the value after
the separator, and when the trimmed value is nonempty and starts with
neither a single nor a double quote, replace it by its single-quoted form
with apostrophes doubled (keeping the original separator and adding one
space before the opening quote). -/
def processLine (line : List Char) : List Char :=
  match firstFoundKey line problematicKeys with
  | none => line
  | some (key, colonPos) =>
    let afterColon := colonPos + key.length
    match findNonWs (line.drop afterColon) with
    | none => line
    | some valueStart =>
      let value := rustTrim (line.drop (afterColon + valueStart))
      if value ≠ [] ∧ value.head? ≠ some quoteCh ∧
          value.head? ≠ some dquoteCh then
        line.take afterColon ++ (line.drop afterColon).take valueStart ++
          ' ' :: quoteCh :: (escapeQuotes value ++ [quoteCh])
      else line

/-- Embeds `SessionInfoParser::preprocess_iracing_yaml`
(src/schema/session/cache.rs, lines 134 to 197).  The source function
always returns `Ok`, so the result is modelled directly: strip control
characters (except newline, carriage return, tab), process each line,
join with newlines; a whitespace-only input is returned verbatim. -/
def preprocess_iracing_yaml (yaml : List Char) : List Char :=
  let cleaned := yaml.filter keepCacheChar
  let resultLines := (rustLines cleaned).map processLine
  let result := joinNL resultLines
  if rustTrim yaml = [] then yaml else result

/-- The input of spec example S3: the text
`UserName: O'Connor, Mike\nTeamName: "Fast & Furious" Racing\n`
as a character list (apostrophe and double quote written via `quoteCh`
and `dquoteCh`). -/
def c5input : List Char :=
  ['U', 's', 'e', 'r', 'N', 'a', 'm', 'e', ':', ' ', 'O'] ++ quoteCh ::
    ['C', 'o', 'n', 'n', 'o', 'r', ',', ' ', 'M', 'i', 'k', 'e', '\n',
     'T', 'e', 'a', 'm', 'N', 'a', 'm', 'e', ':', ' '] ++ dquoteCh ::
    ['F', 'a', 's', 't', ' ', '&', ' ', 'F', 'u', 'r', 'i', 'o', 'u',
     's'] ++ dquoteCh :: [' ', 'R', 'a', 'c', 'i', 'n', 'g', '\n']

/-- The exact output of the cache preprocessor on `c5input`:
`UserName:  'O''Connor, Mike'\nTeamName: "Fast & Furious" Racing`
(double space after the colon, apostrophe doubled, value single-quoted,
the trailing newline dropped by the lines/join roundtrip). -/
def c5expected : List Char :=
  ['U', 's', 'e', 'r', 'N', 'a', 'm', 'e', ':', ' ', ' '] ++ quoteCh ::
    'O' :: quoteCh :: quoteCh ::
    ['C', 'o', 'n', 'n', 'o', 'r', ',', ' ', 'M', 'i', 'k', 'e'] ++
    quoteCh ::
    ['\n', 'T', 'e', 'a', 'm', 'N', 'a', 'm', 'e', ':', ' '] ++
    dquoteCh ::
    ['F', 'a', 's', 't', ' ', '&', ' ', 'F', 'u', 'r', 'i', 'o', 'u',
     's'] ++ dquoteCh :: [' ', 'R', 'a', 'c', 'i', 'n', 'g']

/-- The fragment `UserName:  'O''Connor, Mike'` the claim says the output
contains. -/
def c5fragment : List Char :=
  ['U', 's', 'e', 'r', 'N', 'a', 'm', 'e', ':', ' ', ' '] ++ quoteCh ::
    'O' :: quoteCh :: quoteCh ::
    ['C', 'o', 'n', 'n', 'o', 'r', ',', ' ', 'M', 'i', 'k', 'e'] ++
    [quoteCh]

/-- The TeamName line `TeamName: "Fast & Furious" Racing` of the input,
which the preprocessor must leave unchanged. -/
def c5teamline : List Char :=
  ['T', 'e', 'a', 'm', 'N', 'a', 'm', 'e', ':', ' '] ++ dquoteCh ::
    ['F', 'a', 's', 't', ' ', '&', ' ', 'F', 'u', 'r', 'i', 'o', 'u',
     's'] ++ dquoteCh :: [' ', 'R', 'a', 'c', 'i', 'n', 'g']

/-! ### Lemmas about the preprocessor building blocks -/

theorem findSub_eq_none_iff (l pat : List Char) :
    findSub l pat = none ↔ ∀ i, ¬ pat <+: l.drop i := by
  induction l with
  | nil =>
    simp only [findSub, List.isPrefixOf_iff_prefix]
    constructor
    · intro h i
      simp only [List.drop_nil]
      intro hp
      simp [hp] at h
    · intro h
      have := h 0
      simp only [List.drop_nil] at this
      simp [this]
  | cons a t ih =>
    simp only [findSub, List.isPrefixOf_iff_prefix]
    by_cases hp : pat <+: a :: t
    · simp only [if_pos hp]
      constructor
      · intro h; cases h
      · intro h; exact absurd hp (by simpa using h 0)
    · simp only [if_neg hp, Option.map_eq_none', ih]
      constructor
      · intro h i
        cases i with
        | zero => simpa using hp
        | succ j => simpa using h j
      · intro h i
        simpa using h (i + 1)

theorem findSub_eq_some (l pat : List Char) (p : Nat)
    (h : findSub l pat = some p) :
    pat <+: l.drop p ∧ ∀ i, i < p → ¬ pat <+: l.drop i := by
  induction l generalizing p with
  | nil =>
    simp only [findSub, List.isPrefixOf_iff_prefix] at h
    split at h
    · cases h
      simpa using (by assumption : pat <+: ([] : List Char))
    · cases h
  | cons a t ih =>
    simp only [findSub, List.isPrefixOf_iff_prefix] at h
    split at h
    · cases h
      refine ⟨by simpa using (by assumption : pat <+: a :: t), ?_⟩
      intro i hi; omega
    · rename_i hp
      rw [Option.map_eq_some'] at h
      obtain ⟨q, hq, hq2⟩ := h
      subst hq2
      obtain ⟨h1, h2⟩ := ih q hq
      refine ⟨by simpa using h1, ?_⟩
      intro i hi
      cases i with
      | zero => simpa using hp
      | succ j => simpa using h2 j (by omega)

theorem findSub_intro (l pat : List Char) (p : Nat)
    (h1 : pat <+: l.drop p) (h2 : ∀ i, i < p → ¬ pat <+: l.drop i) :
    findSub l pat = some p := by
  induction l generalizing p with
  | nil =>
    simp only [List.drop_nil] at h1
    have hp0 : p = 0 := by
      by_contra hne
      exact h2 0 (by omega) (by simpa using h1)
    subst hp0
    simp only [findSub, List.isPrefixOf_iff_prefix]
    simpa using h1
  | cons a t ih =>
    simp only [findSub, List.isPrefixOf_iff_prefix]
    cases p with
    | zero =>
      simp only [List.drop_zero] at h1
      simp [h1]
    | succ q =>
      have hnp : ¬ pat <+: a :: t := by simpa using h2 0 (by omega)
      rw [if_neg hnp]
      have := ih q (by simpa using h1)
        (fun i hi => by simpa using h2 (i + 1) (by omega))
      simp [this]

theorem infix_iff_exists_drop (pat l : List Char) :
    pat <:+: l ↔ ∃ i, pat <+: l.drop i := by
  constructor
  · rintro ⟨s, t, rfl⟩
    refine ⟨s.length, ?_⟩
    rw [List.append_assoc, List.drop_append_of_le_length (le_refl _)]
    simp
  · rintro ⟨i, t, ht⟩
    exact ⟨l.take i, t, by rw [List.append_assoc, ht, List.take_append_drop]⟩

theorem findSub_eq_none_iff_occurs (l pat : List Char) :
    findSub l pat = none ↔ ¬ pat <:+: l := by
  rw [findSub_eq_none_iff, infix_iff_exists_drop]
  push_neg
  rfl

theorem findNonWs_eq_some (x : List Char) (n : Nat)
    (h : findNonWs x = some n) :
    ∃ w c rest, x = w ++ c :: rest ∧ w.length = n ∧
      (∀ d ∈ w, rustIsWhitespace d = true) ∧ rustIsWhitespace c = false := by
  induction x generalizing n with
  | nil => cases h
  | cons a t ih =>
    simp only [findNonWs] at h
    by_cases hw : rustIsWhitespace a
    · rw [if_pos hw, Option.map_eq_some'] at h
      obtain ⟨m, hm, hm2⟩ := h
      subst hm2
      obtain ⟨w, c, rest, hx, hlen, hws, hc⟩ := ih m hm
      refine ⟨a :: w, c, rest, by rw [hx]; rfl, by simp [hlen], ?_, hc⟩
      intro d hd
      rcases List.mem_cons.mp hd with rfl | hd
      · exact hw
      · exact hws d hd
    · rw [if_neg hw] at h
      cases h
      refine ⟨[], a, t, rfl, rfl, ?_, by simpa using hw⟩
      intro d hd
      cases hd

theorem findNonWs_append_ws (w rest : List Char)
    (hw : ∀ d ∈ w, rustIsWhitespace d = true) :
    findNonWs (w ++ rest) =
      match findNonWs rest with
      | none => none
      | some k => some (k + w.length) := by
  induction w with
  | nil => cases h : findNonWs rest <;> simp [h]
  | cons a t ih =>
    have ha : rustIsWhitespace a = true := hw a (by simp)
    have ht : ∀ d ∈ t, rustIsWhitespace d = true :=
      fun d hd => hw d (by simp [hd])
    simp only [List.cons_append, findNonWs, ha, if_pos]
    rw [List.append_eq, ih ht]
    cases h : findNonWs rest <;> simp [List.length_cons] <;> omega

theorem mem_escapeQuotes {c : Char} {v : List Char}
    (h : c ∈ escapeQuotes v) : c ∈ v ∨ c = quoteCh := by
  induction v with
  | nil => cases h
  | cons a t ih =>
    simp only [escapeQuotes] at h
    by_cases ha : a = quoteCh
    · rw [if_pos ha] at h
      rcases List.mem_cons.mp h with rfl | h
      · right; rfl
      rcases List.mem_cons.mp h with rfl | h
      · right; rfl
      rcases ih h with h | h
      · exact Or.inl (by simp [h])
      · exact Or.inr h
    · rw [if_neg ha] at h
      rcases List.mem_cons.mp h with rfl | h
      · exact Or.inl (by simp)
      rcases ih h with h | h
      · exact Or.inl (by simp [h])
      · exact Or.inr h

theorem escapeQuotes_prefix_elim {k v : List Char}
    (h : k <+: escapeQuotes v) (hq : quoteCh ∉ k) : k <+: v := by
  induction v generalizing k with
  | nil =>
    simp only [escapeQuotes] at h
    simpa using h
  | cons a t ih =>
    simp only [escapeQuotes] at h
    by_cases ha : a = quoteCh
    · rw [if_pos ha] at h
      cases k with
      | nil => simp
      | cons k0 k' =>
        rw [List.cons_prefix_cons] at h
        exact absurd h.1 (by intro e; exact hq (by simp [e]))
    · rw [if_neg ha] at h
      cases k with
      | nil => simp
      | cons k0 k' =>
        rw [List.cons_prefix_cons] at h
        obtain ⟨rfl, h'⟩ := h
        have := ih h' (fun hm => hq (by simp [hm]))
        rw [List.cons_prefix_cons]
        exact ⟨rfl, this⟩

theorem infix_cons_elim {k : List Char} {c : Char} {t : List Char}
    (h : k <:+: c :: t) (hc : c ∉ k) (hk : k ≠ []) : k <:+: t := by
  rcases List.infix_cons_iff.mp h with h | h
  · cases k with
    | nil => exact absurd rfl hk
    | cons k0 k' =>
      rw [List.cons_prefix_cons] at h
      exact absurd h.1.symm (by intro e; exact hc (by simp [e]))
  · exact h

theorem escapeQuotes_infix_elim {k v : List Char}
    (h : k <:+: escapeQuotes v) (hq : quoteCh ∉ k) (hk : k ≠ []) :
    k <:+: v := by
  induction v generalizing k with
  | nil =>
    simp only [escapeQuotes] at h
    exact absurd (List.infix_nil.mp h) hk
  | cons a t ih =>
    simp only [escapeQuotes] at h
    by_cases ha : a = quoteCh
    · rw [if_pos ha] at h
      have h1 := infix_cons_elim h (by simpa using hq) hk
      have h2 := infix_cons_elim h1 (by simpa using hq) hk
      exact List.infix_cons (ih h2 hq hk)
    · rw [if_neg ha] at h
      rcases List.infix_cons_iff.mp h with h | h
      · cases k with
        | nil => exact absurd rfl hk
        | cons k0 k' =>
          rw [List.cons_prefix_cons] at h
          obtain ⟨rfl, h'⟩ := h
          have hk' : k' <+: t :=
            escapeQuotes_prefix_elim h' (fun hm => hq (by simp [hm]))
          exact (List.cons_prefix_cons.mpr ⟨rfl, hk'⟩).isInfix
      · exact List.infix_cons (ih h hq hk)

theorem mem_of_getLast?_eq {α : Type} {l : List α} {a : α}
    (h : l.getLast? = some a) : a ∈ l := by
  have hm : a ∈ l.getLast? := by simp [h]
  obtain ⟨hne, he⟩ := List.mem_getLast?_eq_getLast hm
  rw [he]
  exact List.getLast_mem hne

theorem getLast?_cons_ne_nil {α : Type} {x : α} {xs : List α}
    (h : xs ≠ []) : (x :: xs).getLast? = xs.getLast? := by
  cases xs with
  | nil => exact absurd rfl h
  | cons b u => exact List.getLast?_cons_cons ..

theorem prefix_of_prefix_append {k u v : List Char} (h : k <+: u ++ v)
    (hl : k.length ≤ u.length) : k <+: u := by
  rw [List.prefix_iff_eq_take, List.take_append_of_le_length hl] at h
  rw [h]
  exact List.take_prefix _ _

theorem prefix_take_of {k x : List Char} {n : Nat} (h : k <+: x)
    (hn : k.length ≤ n) : k <+: x.take n := by
  rw [List.prefix_iff_eq_take] at h
  rw [h, show x.take k.length = (x.take n).take k.length from by
    rw [List.take_take, Nat.min_eq_left hn]]
  exact List.take_prefix _ _

theorem prefix_append_split {k u v : List Char} (h : k <+: u ++ v) :
    k <+: u ∨ ∃ b, k = u ++ b ∧ b <+: v := by
  by_cases hl : k.length ≤ u.length
  · exact Or.inl (prefix_of_prefix_append h hl)
  · right
    rw [List.prefix_iff_eq_take] at h
    have hu : u.length ≤ k.length := by omega
    rw [List.take_append_eq_append_take, List.take_of_length_le hu] at h
    exact ⟨v.take (k.length - u.length), h, List.take_prefix _ _⟩

theorem infix_append_split {k A B : List Char} (h : k <:+: A ++ B) :
    k <:+: A ∨ k <:+: B ∨
      ∃ a b, k = a ++ b ∧ a ≠ [] ∧ b ≠ [] ∧ a <:+ A ∧ b <+: B := by
  induction A generalizing k with
  | nil =>
    rw [List.nil_append] at h
    exact Or.inr (Or.inl h)
  | cons c A2 ih =>
    rw [List.cons_append] at h
    rcases List.infix_cons_iff.mp h with h | h
    · cases k with
      | nil => exact Or.inl List.nil_infix
      | cons k0 k2 =>
        rw [List.cons_prefix_cons] at h
        obtain ⟨rfl, h2⟩ := h
        rcases prefix_append_split h2 with h3 | ⟨b, hk2, hb⟩
        · exact Or.inl (List.cons_prefix_cons.mpr ⟨rfl, h3⟩).isInfix
        · by_cases hbnil : b = []
          · subst hbnil
            rw [List.append_nil] at hk2
            subst hk2
            exact Or.inl (List.prefix_refl _).isInfix
          · refine Or.inr (Or.inr ⟨k0 :: A2, b, ?_, by simp, hbnil,
              List.suffix_refl _, hb⟩)
            rw [hk2]
            rfl
    · rcases ih h with h | h | ⟨a, b, hk, ha, hb, hsuf, hpre⟩
      · exact Or.inl (List.infix_cons h)
      · exact Or.inr (Or.inl h)
      · exact Or.inr (Or.inr ⟨a, b, hk, ha, hb,
          hsuf.trans (List.suffix_cons c A2), hpre⟩)

theorem infix_concat_elim {k t : List Char} {c : Char}
    (h : k <:+: t ++ [c]) (hc : c ∉ k) (hk : k ≠ []) : k <:+: t := by
  rcases infix_append_split h with h | h | ⟨a, b, hkab, _, hb, _, hpre⟩
  · exact h
  · rcases List.infix_cons_iff.mp h with h | h
    · cases k with
      | nil => exact absurd rfl hk
      | cons k0 k2 =>
        rw [List.cons_prefix_cons] at h
        exact absurd h.1.symm (fun e => hc (by simp [e]))
    · exact absurd (List.infix_nil.mp h) hk
  · cases b with
    | nil => exact absurd rfl hb
    | cons b0 b2 =>
      rw [List.cons_prefix_cons] at hpre
      obtain ⟨rfl, -⟩ := hpre
      refine absurd ?_ hc
      rw [hkab]
      exact List.mem_append_right a (by simp)

theorem prefix_drop_take_append {k l B : List Char} {i m : Nat}
    (h : k <+: l.drop i) (him : i + k.length ≤ m) (hml : m ≤ l.length) :
    k <+: (l.take m ++ B).drop i := by
  have hi : i ≤ (l.take m).length := by
    rw [List.length_take]
    omega
  rw [List.drop_append_of_le_length hi, List.drop_take]
  have h1 : k <+: (l.drop i).take (m - i) :=
    prefix_take_of h (by omega)
  exact h1.trans (List.prefix_append _ _)

theorem prefix_of_drop_take_append {k l B : List Char} {i m : Nat}
    (h : k <+: (l.take m ++ B).drop i) (him : i + k.length ≤ m)
    (hml : m ≤ l.length) : k <+: l.drop i := by
  have hi : i ≤ (l.take m).length := by
    rw [List.length_take]
    omega
  rw [List.drop_append_of_le_length hi, List.drop_take] at h
  have hlen : k.length ≤ ((l.drop i).take (m - i)).length := by
    rw [List.length_take, List.length_drop]
    omega
  exact (prefix_of_prefix_append h hlen).trans (List.take_prefix _ _)

theorem dropWhile_append_singleton {p : Char → Bool} {u : List Char}
    {c : Char} (hc : p c = false) :
    (u ++ [c]).dropWhile p = u.dropWhile p ++ [c] := by
  induction u with
  | nil => simp [List.dropWhile, hc]
  | cons a t ih =>
    by_cases ha : p a <;> simp [List.dropWhile_cons, ha, ih]

theorem trimRight_cons_not_ws {c : Char} {t : List Char}
    (hc : rustIsWhitespace c = false) :
    trimRight (c :: t) = c :: trimRight t := by
  unfold trimRight
  rw [List.reverse_cons, dropWhile_append_singleton hc,
    List.reverse_append]
  rfl

theorem rustTrim_cons_not_ws {c : Char} {t : List Char}
    (hc : rustIsWhitespace c = false) :
    rustTrim (c :: t) = c :: trimRight t := by
  unfold rustTrim
  rw [List.dropWhile_cons_of_neg (by simp [hc]), trimRight_cons_not_ws hc]

theorem rustTrim_occurs (s : List Char) : rustTrim s <:+: s := by
  unfold rustTrim trimRight
  have h1 : s.dropWhile rustIsWhitespace <:+ s := List.dropWhile_suffix _
  obtain ⟨t, ht⟩ :=
    List.dropWhile_suffix (l := (s.dropWhile rustIsWhitespace).reverse)
      rustIsWhitespace
  have h2 : ((s.dropWhile rustIsWhitespace).reverse.dropWhile
      rustIsWhitespace).reverse <+: s.dropWhile rustIsWhitespace :=
    ⟨t.reverse, by rw [← List.reverse_append, ht, List.reverse_reverse]⟩
  exact h2.isInfix.trans h1.isInfix

theorem splitOnNL_cons_nl (t : List Char) :
    splitOnNL ('\n' :: t) = [] :: splitOnNL t := by
  rw [splitOnNL]
  simp

theorem splitOnNL_cons_not_nl {c : Char} (hc : c ≠ '\n')
    (t : List Char) :
    splitOnNL (c :: t) =
      match splitOnNL t with
      | [] => [[c]]
      | s :: rest => (c :: s) :: rest := by
  rw [splitOnNL, if_neg hc]

theorem splitOnNL_ne_nil (s : List Char) : splitOnNL s ≠ [] := by
  cases s with
  | nil => simp [splitOnNL]
  | cons c t =>
    simp only [splitOnNL]
    split
    · simp
    · split <;> simp

theorem mem_splitOnNL_no_nl {s p : List Char} (h : p ∈ splitOnNL s) :
    '\n' ∉ p := by
  induction s generalizing p with
  | nil =>
    simp only [splitOnNL, List.mem_singleton] at h
    subst h
    simp
  | cons c t ih =>
    by_cases hc : c = '\n'
    · subst hc
      rw [splitOnNL_cons_nl] at h
      rcases List.mem_cons.mp h with rfl | h
      · simp
      · exact ih h
    · rw [splitOnNL_cons_not_nl hc] at h
      cases hsp : splitOnNL t with
      | nil => exact absurd hsp (splitOnNL_ne_nil t)
      | cons s0 rest =>
        rw [hsp] at h
        rcases List.mem_cons.mp h with rfl | h
        · intro hmem
          rcases List.mem_cons.mp hmem with h1 | h1
          · exact hc h1.symm
          · exact ih (by rw [hsp]; simp) h1
        · exact ih (by rw [hsp]; exact List.mem_cons_of_mem _ h)

theorem mem_splitOnNL_subset {s p : List Char} (hp : p ∈ splitOnNL s)
    {c : Char} (hc : c ∈ p) : c ∈ s := by
  induction s generalizing p with
  | nil =>
    simp only [splitOnNL, List.mem_singleton] at hp
    subst hp
    cases hc
  | cons a t ih =>
    by_cases ha : a = '\n'
    · subst ha
      rw [splitOnNL_cons_nl] at hp
      rcases List.mem_cons.mp hp with rfl | hp
      · cases hc
      · exact List.mem_cons_of_mem _ (ih hp hc)
    · rw [splitOnNL_cons_not_nl ha] at hp
      cases hsp : splitOnNL t with
      | nil => exact absurd hsp (splitOnNL_ne_nil t)
      | cons s0 rest =>
        rw [hsp] at hp
        rcases List.mem_cons.mp hp with rfl | hp
        · rcases List.mem_cons.mp hc with rfl | hc2
          · simp
          · exact List.mem_cons_of_mem _ (ih (by rw [hsp]; simp) hc2)
        · exact List.mem_cons_of_mem _
            (ih (by rw [hsp]; exact List.mem_cons_of_mem _ hp) hc)

theorem splitOnNL_no_nl {s : List Char} (h : '\n' ∉ s) :
    splitOnNL s = [s] := by
  induction s with
  | nil => rfl
  | cons c t ih =>
    have hc : c ≠ '\n' := fun e => h (by simp [e])
    have ht : '\n' ∉ t := fun hm => h (by simp [hm])
    rw [splitOnNL_cons_not_nl hc, ih ht]

theorem splitOnNL_append {p rest : List Char} (hp : '\n' ∉ p) :
    splitOnNL (p ++ '\n' :: rest) = p :: splitOnNL rest := by
  induction p with
  | nil =>
    rw [List.nil_append, splitOnNL_cons_nl]
  | cons c t ih =>
    have hc : c ≠ '\n' := fun e => hp (by simp [e])
    have ht : '\n' ∉ t := fun hm => hp (by simp [hm])
    rw [List.cons_append, splitOnNL_cons_not_nl hc, ih ht]

theorem splitOnNL_getLast_ne_nil {s : List Char} (hs : s ≠ [])
    (hlast : s.getLast? ≠ some '\n') :
    (splitOnNL s).getLast? ≠ some ([] : List Char) := by
  induction s with
  | nil => exact absurd rfl hs
  | cons c t ih =>
    cases t with
    | nil =>
      have hc : c ≠ '\n' := fun e => hlast (by simp [e])
      simp [splitOnNL, if_neg hc]
    | cons b u =>
      have h2 : (c :: b :: u).getLast? = (b :: u).getLast? :=
        List.getLast?_cons_cons ..
      have ih2 := ih (by simp) (by rw [← h2]; exact hlast)
      by_cases hc : c = '\n'
      · subst hc
        rw [splitOnNL_cons_nl,
          getLast?_cons_ne_nil (splitOnNL_ne_nil (b :: u))]
        exact ih2
      · rw [splitOnNL_cons_not_nl hc]
        cases hsp : splitOnNL (b :: u) with
        | nil => exact absurd hsp (splitOnNL_ne_nil (b :: u))
        | cons s0 rest =>
          rw [hsp] at ih2
          cases rest with
          | nil => simp
          | cons r rs =>
            rw [getLast?_cons_ne_nil (by simp)] at ih2
            simpa [getLast?_cons_ne_nil] using ih2

theorem stripTrailingCR_eq_self {p : List Char} (h : '\r' ∉ p) :
    stripTrailingCR p = p := by
  unfold stripTrailingCR
  rw [if_neg]
  intro hl
  exact h (mem_of_getLast?_eq hl)

theorem map_stripTrailingCR_eq_self {L : List (List Char)}
    (h : ∀ p ∈ L, '\r' ∉ p) : L.map stripTrailingCR = L := by
  induction L with
  | nil => rfl
  | cons p rest ih =>
    rw [List.map_cons, stripTrailingCR_eq_self (h p (by simp)),
      ih (fun q hq => h q (List.mem_cons_of_mem _ hq))]

theorem rustLines_joinNL {ps : List (List Char)} (hne : ps ≠ [])
    (hnl : ∀ p ∈ ps, '\n' ∉ p) (hcr : ∀ p ∈ ps, '\r' ∉ p)
    (hlast : ps.getLast? ≠ some []) :
    rustLines (joinNL ps) = ps := by
  induction ps with
  | nil => exact absurd rfl hne
  | cons p rest ih =>
    cases rest with
    | nil =>
      have hp : p ≠ [] := fun e => hlast (by simp [e])
      show rustLines p = [p]
      unfold rustLines
      rw [splitOnNL_no_nl (hnl p (by simp))]
      show List.map stripTrailingCR
        (if ([p] : List (List Char)).getLast? = some [] then
          ([p] : List (List Char)).dropLast else [p]) = [p]
      rw [if_neg (by simpa using hp)]
      rw [List.map_singleton, stripTrailingCR_eq_self (hcr p (by simp))]
    | cons p2 rest2 =>
      have hjoin : joinNL (p :: p2 :: rest2) =
          p ++ '\n' :: joinNL (p2 :: rest2) := rfl
      have hlast2 : (p2 :: rest2).getLast? ≠ some [] := by
        rw [← getLast?_cons_ne_nil (x := p) (by simp)]
        exact hlast
      have ihh := ih (by simp)
        (fun q hq => hnl q (List.mem_cons_of_mem _ hq))
        (fun q hq => hcr q (List.mem_cons_of_mem _ hq)) hlast2
      unfold rustLines
      rw [hjoin, splitOnNL_append (hnl p (by simp))]
      have hne2 : splitOnNL (joinNL (p2 :: rest2)) ≠ [] :=
        splitOnNL_ne_nil _
      show List.map stripTrailingCR
        (if (p :: splitOnNL (joinNL (p2 :: rest2))).getLast? = some [] then
          (p :: splitOnNL (joinNL (p2 :: rest2))).dropLast
        else p :: splitOnNL (joinNL (p2 :: rest2))) = p :: p2 :: rest2
      rw [getLast?_cons_ne_nil hne2]
      by_cases hcase :
          (splitOnNL (joinNL (p2 :: rest2))).getLast? = some []
      · rw [if_pos hcase, List.dropLast_cons_of_ne_nil hne2,
          List.map_cons, stripTrailingCR_eq_self (hcr p (by simp))]
        have hrl : rustLines (joinNL (p2 :: rest2)) =
            ((splitOnNL (joinNL (p2 :: rest2))).dropLast).map
              stripTrailingCR := by
          unfold rustLines
          show List.map stripTrailingCR
            (if (splitOnNL (joinNL (p2 :: rest2))).getLast? = some [] then
              (splitOnNL (joinNL (p2 :: rest2))).dropLast
            else splitOnNL (joinNL (p2 :: rest2))) = _
          rw [if_pos hcase]
        rw [← hrl, ihh]
      · rw [if_neg hcase, List.map_cons,
          stripTrailingCR_eq_self (hcr p (by simp))]
        have hrl : rustLines (joinNL (p2 :: rest2)) =
            (splitOnNL (joinNL (p2 :: rest2))).map stripTrailingCR := by
          unfold rustLines
          show List.map stripTrailingCR
            (if (splitOnNL (joinNL (p2 :: rest2))).getLast? = some [] then
              (splitOnNL (joinNL (p2 :: rest2))).dropLast
            else splitOnNL (joinNL (p2 :: rest2))) = _
          rw [if_neg hcase]
        rw [← hrl, ihh]

theorem firstFoundKey_eq_some {l : List Char} {ks : List (List Char)}
    {k : List Char} {p : Nat} (h : firstFoundKey l ks = some (k, p)) :
    ∃ pre post, ks = pre ++ k :: post ∧
      (∀ k2 ∈ pre, findSub l k2 = none) ∧ findSub l k = some p := by
  induction ks with
  | nil => cases h
  | cons k0 ks2 ih =>
    simp only [firstFoundKey] at h
    cases hf : findSub l k0 with
    | some q =>
      rw [hf] at h
      simp only [Option.some.injEq, Prod.mk.injEq] at h
      obtain ⟨rfl, rfl⟩ := h
      exact ⟨[], ks2, rfl, by simp, hf⟩
    | none =>
      rw [hf] at h
      obtain ⟨pre, post, rfl, hpre, hk⟩ := ih h
      refine ⟨k0 :: pre, post, rfl, ?_, hk⟩
      intro k2 hk2
      rcases List.mem_cons.mp hk2 with rfl | hk2
      · exact hf
      · exact hpre k2 hk2

theorem firstFoundKey_intro {l : List Char} {pre post : List (List Char)}
    {k : List Char} {p : Nat}
    (hpre : ∀ k2 ∈ pre, findSub l k2 = none)
    (hk : findSub l k = some p) :
    firstFoundKey l (pre ++ k :: post) = some (k, p) := by
  induction pre with
  | nil => simp only [List.nil_append, firstFoundKey, hk]
  | cons k0 pre2 ih =>
    have h0 : findSub l k0 = none := hpre k0 (by simp)
    simp only [List.cons_append, firstFoundKey, h0]
    exact ih (fun k2 hk2 => hpre k2 (List.mem_cons_of_mem _ hk2))

theorem problematicKeys_facts : ∀ k ∈ problematicKeys,
    k ≠ [] ∧ quoteCh ∉ k ∧ ' ' ∉ k ∧ '\n' ∉ k ∧ '\r' ∉ k := by decide

theorem quoteCh_not_ws : rustIsWhitespace quoteCh = false := by decide

theorem processLine_eq_of_none {l : List Char}
    (hff : firstFoundKey l problematicKeys = none) : processLine l = l := by
  unfold processLine
  rw [hff]

theorem processLine_eq_of_noval {l k : List Char} {p : Nat}
    (hff : firstFoundKey l problematicKeys = some (k, p))
    (hfn : findNonWs (l.drop (p + k.length)) = none) :
    processLine l = l := by
  simp only [processLine, hff, hfn]

theorem processLine_eq_of_quoted {l k : List Char} {p vs : Nat}
    (hff : firstFoundKey l problematicKeys = some (k, p))
    (hfn : findNonWs (l.drop (p + k.length)) = some vs)
    (hcond : ¬ (rustTrim (l.drop (p + k.length + vs)) ≠ [] ∧
      (rustTrim (l.drop (p + k.length + vs))).head? ≠ some quoteCh ∧
      (rustTrim (l.drop (p + k.length + vs))).head? ≠ some dquoteCh)) :
    processLine l = l := by
  simp only [processLine, hff, hfn]
  rw [if_neg hcond]

theorem processLine_eq_of_transform {l k : List Char} {p vs : Nat}
    (hff : firstFoundKey l problematicKeys = some (k, p))
    (hfn : findNonWs (l.drop (p + k.length)) = some vs)
    (hcond : rustTrim (l.drop (p + k.length + vs)) ≠ [] ∧
      (rustTrim (l.drop (p + k.length + vs))).head? ≠ some quoteCh ∧
      (rustTrim (l.drop (p + k.length + vs))).head? ≠ some dquoteCh) :
    processLine l = l.take (p + k.length) ++
      (l.drop (p + k.length)).take vs ++
      ' ' :: quoteCh ::
        (escapeQuotes (rustTrim (l.drop (p + k.length + vs))) ++
          [quoteCh]) := by
  simp only [processLine, hff, hfn]
  rw [if_pos hcond]

theorem key_infix_transfer {k2 l value : List Char} {avs : Nat}
    (hk2 : k2 ≠ []) (hsp : ' ' ∉ k2) (hq : quoteCh ∉ k2)
    (hvin : value <:+: l)
    (h : k2 <:+: l.take avs ++
      ' ' :: quoteCh :: (escapeQuotes value ++ [quoteCh])) :
    k2 <:+: l := by
  rcases infix_append_split h with h | h | ⟨a, b, hab, _, hb, _, hpre2⟩
  · exact h.trans (List.take_prefix avs l).isInfix
  · have h1 := infix_cons_elim h hsp hk2
    have h2 := infix_cons_elim h1 hq hk2
    have h3 := infix_concat_elim h2 hq hk2
    exact (escapeQuotes_infix_elim h3 hq hk2).trans hvin
  · cases b with
    | nil => exact absurd rfl hb
    | cons b0 b2 =>
      rw [List.cons_prefix_cons] at hpre2
      obtain ⟨rfl, -⟩ := hpre2
      refine absurd ?_ hsp
      rw [hab]
      exact List.mem_append_right a (by simp)

theorem mem_joinNL {c : Char} {ps : List (List Char)}
    (h : c ∈ joinNL ps) : c = '\n' ∨ ∃ p ∈ ps, c ∈ p := by
  induction ps with
  | nil => cases h
  | cons p rest ih =>
    cases rest with
    | nil => exact Or.inr ⟨p, by simp, h⟩
    | cons p2 rest2 =>
      rw [show joinNL (p :: p2 :: rest2) =
        p ++ '\n' :: joinNL (p2 :: rest2) from rfl] at h
      rcases List.mem_append.mp h with h | h
      · exact Or.inr ⟨p, by simp, h⟩
      · rcases List.mem_cons.mp h with rfl | h
        · exact Or.inl rfl
        · rcases ih h with h | ⟨q, hq, hcq⟩
          · exact Or.inl h
          · exact Or.inr ⟨q, List.mem_cons_of_mem _ hq, hcq⟩

theorem mem_rustTrim {c : Char} {s : List Char} (h : c ∈ rustTrim s) :
    c ∈ s := (rustTrim_occurs s).mem h

theorem mem_processLine {c : Char} {l : List Char}
    (h : c ∈ processLine l) : c ∈ l ∨ c = ' ' ∨ c = quoteCh := by
  cases hff : firstFoundKey l problematicKeys with
  | none =>
    rw [processLine_eq_of_none hff] at h
    exact Or.inl h
  | some kp =>
    obtain ⟨k, p⟩ := kp
    cases hfn : findNonWs (l.drop (p + k.length)) with
    | none =>
      rw [processLine_eq_of_noval hff hfn] at h
      exact Or.inl h
    | some vs =>
      by_cases hcond : rustTrim (l.drop (p + k.length + vs)) ≠ [] ∧
          (rustTrim (l.drop (p + k.length + vs))).head? ≠ some quoteCh ∧
          (rustTrim (l.drop (p + k.length + vs))).head? ≠ some dquoteCh
      · rw [processLine_eq_of_transform hff hfn hcond] at h
        rcases List.mem_append.mp h with h | h
        · rcases List.mem_append.mp h with h | h
          · exact Or.inl (List.mem_of_mem_take h)
          · exact Or.inl (List.mem_of_mem_drop (List.mem_of_mem_take h))
        · rcases List.mem_cons.mp h with rfl | h
          · exact Or.inr (Or.inl rfl)
          rcases List.mem_cons.mp h with rfl | h
          · exact Or.inr (Or.inr rfl)
          rcases List.mem_append.mp h with h | h
          · rcases mem_escapeQuotes h with h | rfl
            · exact Or.inl (List.mem_of_mem_drop (mem_rustTrim h))
            · exact Or.inr (Or.inr rfl)
          · rcases List.mem_singleton.mp h with rfl
            exact Or.inr (Or.inr rfl)
      · rw [processLine_eq_of_quoted hff hfn hcond] at h
        exact Or.inl h

theorem processLine_ne_nil {l : List Char} (hl : l ≠ []) :
    processLine l ≠ [] := by
  cases hff : firstFoundKey l problematicKeys with
  | none => rw [processLine_eq_of_none hff]; exact hl
  | some kp =>
    obtain ⟨k, p⟩ := kp
    cases hfn : findNonWs (l.drop (p + k.length)) with
    | none => rw [processLine_eq_of_noval hff hfn]; exact hl
    | some vs =>
      by_cases hcond : rustTrim (l.drop (p + k.length + vs)) ≠ [] ∧
          (rustTrim (l.drop (p + k.length + vs))).head? ≠ some quoteCh ∧
          (rustTrim (l.drop (p + k.length + vs))).head? ≠ some dquoteCh
      · rw [processLine_eq_of_transform hff hfn hcond]
        simp
      · rw [processLine_eq_of_quoted hff hfn hcond]; exact hl

theorem findNonWs_cons (c : Char) (t : List Char) :
    findNonWs (c :: t) =
      if rustIsWhitespace c then (findNonWs t).map (· + 1) else some 0 :=
  rfl

theorem processLine_idem (l : List Char) :
    processLine (processLine l) = processLine l := by
  cases hff : firstFoundKey l problematicKeys with
  | none =>
    rw [processLine_eq_of_none hff, processLine_eq_of_none hff]
  | some kp =>
    obtain ⟨k, p⟩ := kp
    cases hfn : findNonWs (l.drop (p + k.length)) with
    | none =>
      rw [processLine_eq_of_noval hff hfn, processLine_eq_of_noval hff hfn]
    | some vs =>
      by_cases hcond : rustTrim (l.drop (p + k.length + vs)) ≠ [] ∧
          (rustTrim (l.drop (p + k.length + vs))).head? ≠ some quoteCh ∧
          (rustTrim (l.drop (p + k.length + vs))).head? ≠ some dquoteCh
      swap
      · rw [processLine_eq_of_quoted hff hfn hcond,
          processLine_eq_of_quoted hff hfn hcond]
      · rw [processLine_eq_of_transform hff hfn hcond]
        obtain ⟨pre, post, hks, hpre, hfk⟩ := firstFoundKey_eq_some hff
        obtain ⟨hknil, hkq, hksp, -, -⟩ := problematicKeys_facts k
          (by rw [hks]; exact List.mem_append_right _ (by simp))
        obtain ⟨hocc, hmin⟩ := findSub_eq_some l k p hfk
        obtain ⟨w, c0, rest, hdec, hwlen, hws, -⟩ :=
          findNonWs_eq_some _ _ hfn
        have hklen : 0 < k.length := by
          cases k with
          | nil => exact absurd rfl hknil
          | cons a b => simp
        have hple : p + k.length ≤ l.length := by
          have h1 := hocc.length_le
          rw [List.length_drop] at h1
          by_cases hp : p ≤ l.length
          · omega
          · exfalso
            have : l.length - p = 0 := by omega
            omega
        have hdlen : (l.drop (p + k.length)).length = vs + 1 + rest.length := by
          rw [hdec]
          simp [hwlen]
          omega
        have havs : p + k.length + vs < l.length := by
          rw [List.length_drop] at hdlen
          omega
        set value := rustTrim (l.drop (p + k.length + vs)) with hvalue
        have hvin : value <:+: l :=
          (rustTrim_occurs _).trans (List.drop_suffix _ _).isInfix
        have hl2 : l.take (p + k.length) ++
            (l.drop (p + k.length)).take vs ++
            ' ' :: quoteCh :: (escapeQuotes value ++ [quoteCh]) =
            l.take (p + k.length + vs) ++
            ' ' :: quoteCh :: (escapeQuotes value ++ [quoteCh]) := by
          conv_rhs => rw [List.take_add]
        rw [hl2]
        set B := ' ' :: quoteCh :: (escapeQuotes value ++ [quoteCh])
          with hB
        set lt := l.take (p + k.length + vs) ++ B with hlt
        have hff2 : firstFoundKey lt problematicKeys = some (k, p) := by
          rw [hks]
          apply firstFoundKey_intro
          · intro k2 hk2
            obtain ⟨hk2nil, hk2q, hk2sp, -, -⟩ := problematicKeys_facts k2
              (by rw [hks]; exact List.mem_append_left _ hk2)
            rw [findSub_eq_none_iff_occurs]
            intro hinf
            have : k2 <:+: l := by
              rw [hlt, hB] at hinf
              exact key_infix_transfer hk2nil hk2sp hk2q hvin hinf
            exact ((findSub_eq_none_iff_occurs l k2).mp (hpre k2 hk2)) this
          · apply findSub_intro
            · rw [hlt]
              exact prefix_drop_take_append hocc (by omega) (by omega)
            · intro i hi hpref
              rw [hlt] at hpref
              exact hmin i hi
                (prefix_of_drop_take_append hpref (by omega) (by omega))
        have hdropac : lt.drop (p + k.length) = w ++ B := by
          rw [hlt]
          have h1 : p + k.length ≤ (l.take (p + k.length + vs)).length := by
            rw [List.length_take]
            omega
          rw [List.drop_append_of_le_length h1, List.drop_take]
          congr 1
          have : p + k.length + vs - (p + k.length) = vs := by omega
          rw [this, hdec, ← hwlen, List.take_left]
        have hfnB : findNonWs B = some 1 := by
          rw [hB, findNonWs_cons, if_pos (by decide), findNonWs_cons,
            if_neg (by decide)]
          rfl
        have hfn2 : findNonWs (lt.drop (p + k.length)) = some (vs + 1) := by
          rw [hdropac, findNonWs_append_ws w B hws, hfnB, hwlen]
          show some (1 + vs) = some (vs + 1)
          rw [Nat.add_comm]
        have hdrop2 : lt.drop (p + k.length + (vs + 1)) =
            quoteCh :: (escapeQuotes value ++ [quoteCh]) := by
          have h1 : lt.drop (p + k.length + (vs + 1)) =
              (lt.drop (p + k.length)).drop (vs + 1) := by
            rw [List.drop_drop]
          have h2 : (w ++ B).drop (w.length + 1) = B.drop 1 :=
            List.drop_append ..
          rw [h1, hdropac, ← hwlen, h2, hB]
          rfl
        have hvalue2 : rustTrim (lt.drop (p + k.length + (vs + 1))) =
            quoteCh :: trimRight (escapeQuotes value ++ [quoteCh]) := by
          rw [hdrop2]
          exact rustTrim_cons_not_ws quoteCh_not_ws
        have hcond2 : ¬ (rustTrim (lt.drop (p + k.length + (vs + 1))) ≠ [] ∧
            (rustTrim (lt.drop (p + k.length + (vs + 1)))).head? ≠
              some quoteCh ∧
            (rustTrim (lt.drop (p + k.length + (vs + 1)))).head? ≠
              some dquoteCh) := by
          intro hc
          exact hc.2.1 (by rw [hvalue2]; rfl)
        exact processLine_eq_of_quoted hff2 hfn2 hcond2

theorem rustLines_sub {s p : List Char} (hp : p ∈ rustLines s) :
    ∃ q ∈ splitOnNL s, ∀ c ∈ p, c ∈ q := by
  simp only [rustLines] at hp
  obtain ⟨q, hq, rfl⟩ := List.mem_map.mp hp
  refine ⟨q, ?_, ?_⟩
  · by_cases hif : (splitOnNL s).getLast? = some ([] : List Char)
    · rw [if_pos hif] at hq
      exact (List.dropLast_sublist _).subset hq
    · rw [if_neg hif] at hq
      exact hq
  · intro c hc
    unfold stripTrailingCR at hc
    by_cases hr : q.getLast? = some ('\r' : Char)
    · rw [if_pos hr] at hc
      exact (List.dropLast_sublist _).subset hc
    · rw [if_neg hr] at hc
      exact hc

theorem mem_rustLines {s p : List Char} (hp : p ∈ rustLines s) {c : Char}
    (hc : c ∈ p) : c ∈ s := by
  obtain ⟨q, hqs, hsub⟩ := rustLines_sub hp
  exact mem_splitOnNL_subset hqs (hsub c hc)

theorem rustLines_no_nl {s p : List Char} (hp : p ∈ rustLines s) :
    '\n' ∉ p := by
  obtain ⟨q, hqs, hsub⟩ := rustLines_sub hp
  intro hc
  exact mem_splitOnNL_no_nl hqs (hsub _ hc)

theorem preprocess_eq_of_trim_nil {x : List Char} (h : rustTrim x = []) :
    preprocess_iracing_yaml x = x := by
  simp only [preprocess_iracing_yaml]
  rw [if_pos h]

theorem preprocess_eq_of_trim_ne {x : List Char} (h : ¬ rustTrim x = []) :
    preprocess_iracing_yaml x =
      joinNL ((rustLines (x.filter keepCacheChar)).map processLine) := by
  simp only [preprocess_iracing_yaml]
  rw [if_neg h]

theorem mem_preprocess_keep {x : List Char} (hx : ¬ rustTrim x = [])
    {c : Char} (hc : c ∈ preprocess_iracing_yaml x) :
    keepCacheChar c = true := by
  rw [preprocess_eq_of_trim_ne hx] at hc
  rcases mem_joinNL hc with h | ⟨p, hp, hcp⟩
  · subst h
    decide
  · obtain ⟨q, hq, rfl⟩ := List.mem_map.mp hp
    rcases mem_processLine hcp with h | h | h
    · have hmem : c ∈ x.filter keepCacheChar := mem_rustLines hq h
      exact (List.mem_filter.mp hmem).2
    · subst h
      decide
    · subst h
      decide

theorem rustLines_getLast_ne_nil {s : List Char} (hs : s ≠ [])
    (hcr : ('\r' : Char) ∉ s) (hlast : s.getLast? ≠ some '\n') :
    (rustLines s).getLast? ≠ some ([] : List Char) := by
  have hseg : (splitOnNL s).getLast? ≠ some ([] : List Char) :=
    splitOnNL_getLast_ne_nil hs hlast
  simp only [rustLines]
  rw [if_neg hseg, List.getLast?_map]
  intro h
  obtain ⟨r, hr, hstrip⟩ := Option.map_eq_some'.mp h
  have hrne : r ≠ [] := by
    intro hnil
    rw [hnil] at hr
    exact hseg hr
  unfold stripTrailingCR at hstrip
  by_cases hrcr : r.getLast? = some ('\r' : Char)
  · exact hcr
      (mem_splitOnNL_subset (mem_of_getLast?_eq hr) (mem_of_getLast?_eq hrcr))
  · rw [if_neg hrcr] at hstrip
    exact hrne hstrip

theorem foldl_yamlUtilsStep (x : List Char) :
    ∀ acc q pc, (x.foldl yamlUtilsStep (acc, q, pc)).1 =
      acc ++ x.filter (fun c => !utilsControlRange c) := by
  induction x with
  | nil =>
    intro acc q pc
    simp
  | cons ch t ih =>
    intro acc q pc
    rw [List.foldl_cons]
    by_cases h1 : ch = dquoteCh ∧ pc ≠ backslashCh
    · have hctl : utilsControlRange ch = false := by
        rw [h1.1]
        decide
      have hpush : yamlUtilsStep (acc, q, pc) ch = (acc ++ [ch], !q, ch) := by
        unfold yamlUtilsStep
        rw [if_pos h1]
      rw [hpush, ih]
      simp [List.filter_cons, hctl]
    · by_cases h2 : utilsControlRange ch
      · have hskip : yamlUtilsStep (acc, q, pc) ch = (acc, q, pc) := by
          unfold yamlUtilsStep
          rw [if_neg h1, if_pos h2]
        rw [hskip, ih]
        simp [List.filter_cons, h2]
      · have hpush : yamlUtilsStep (acc, q, pc) ch = (acc ++ [ch], q, ch) := by
          unfold yamlUtilsStep
          rw [if_neg h1, if_neg h2]
        rw [hpush, ih]
        simp [List.filter_cons, h2]

theorem preprocess_utils_eq (x : List Char) :
    preprocess_iracing_yaml_utils x =
      (if rustTrim (x.filter (fun c => !utilsControlRange c)) = [] then none
       else some (x.filter (fun c => !utilsControlRange c))) := by
  simp only [preprocess_iracing_yaml_utils]
  rw [foldl_yamlUtilsStep x [] false ' ', List.nil_append]

/-- C4 counterexample: the cache preprocessor is not idempotent and does
not remove every control character.  On `"a\r\r\n b"` the first pass turns
`\r\r\n` into `\r\n` (str::lines strips one trailing carriage return per
line) and the second pass strips the remaining `\r`; on `"a\n\n"` the
first pass drops the final empty line, the second drops another; and a
whitespace-only input such as the vertical tab `\x0B` is returned
verbatim, keeping a control character that `keepCacheChar` rejects. -/
theorem C4_counterexample :
    preprocess_iracing_yaml
        (preprocess_iracing_yaml ['a', '\r', '\r', '\n', 'b']) ≠
      preprocess_iracing_yaml ['a', '\r', '\r', '\n', 'b'] ∧
    preprocess_iracing_yaml (preprocess_iracing_yaml ['a', '\n', '\n']) ≠
      preprocess_iracing_yaml ['a', '\n', '\n'] ∧
    Char.ofNat 11 ∈ preprocess_iracing_yaml [Char.ofNat 11] ∧
    keepCacheChar (Char.ofNat 11) = false := by
  refine ⟨by decide, by decide, by decide, by decide⟩

/-- C4 (amended): the cache preprocessor
`SessionInfoParser::preprocess_iracing_yaml` is idempotent on every input
that contains no carriage return and whose control-filtered form does not
end in a newline; on every input that is not whitespace-only, its output
contains no control character other than newline, carriage return or tab
(`keepCacheChar` holds of every output character); and the
`yaml_utils::preprocess_iracing_yaml` variant is idempotent on every
successful output and removes every character of its control ranges. -/
theorem C4_preprocess (x : List Char) :
    (('\r' : Char) ∉ x →
      (x.filter keepCacheChar).getLast? ≠ some '\n' →
      preprocess_iracing_yaml (preprocess_iracing_yaml x) =
        preprocess_iracing_yaml x) ∧
    (¬ rustTrim x = [] →
      ∀ c ∈ preprocess_iracing_yaml x, keepCacheChar c = true) ∧
    (∀ y, preprocess_iracing_yaml_utils x = some y →
      preprocess_iracing_yaml_utils y = some y ∧
      ∀ c ∈ y, utilsControlRange c = false) := by
  refine ⟨?_, ?_, ?_⟩
  · intro hcr hlastx
    by_cases htr : rustTrim x = []
    · rw [preprocess_eq_of_trim_nil htr]
      exact preprocess_eq_of_trim_nil htr
    · rw [preprocess_eq_of_trim_ne htr]
      set cleaned := x.filter keepCacheChar with hcl
      set L := rustLines cleaned with hL
      set ps := L.map processLine with hps
      set out := joinNL ps with hout
      by_cases htr2 : rustTrim out = []
      · rw [preprocess_eq_of_trim_nil htr2]
      · rw [preprocess_eq_of_trim_ne htr2]
        have houtne : out ≠ [] := by
          intro h
          rw [h] at htr2
          exact htr2 rfl
        have hpsne : ps ≠ [] := by
          intro h
          rw [hout, h] at houtne
          exact houtne rfl
        have hLne : L ≠ [] := by
          intro h
          rw [hps, h] at hpsne
          exact hpsne rfl
        have hclne : cleaned ≠ [] := by
          intro h
          rw [hL, h] at hLne
          exact hLne rfl
        have hcrcl : ('\r' : Char) ∉ cleaned := by
          intro h
          rw [hcl] at h
          exact hcr (List.mem_filter.mp h).1
        have hkeep : ∀ c ∈ out, keepCacheChar c = true := by
          intro c hc
          apply mem_preprocess_keep htr
          rw [preprocess_eq_of_trim_ne htr, ← hcl, ← hL, ← hps, ← hout]
          exact hc
        have hfout : out.filter keepCacheChar = out :=
          List.filter_eq_self.mpr hkeep
        rw [hfout]
        have hnl : ∀ p ∈ ps, ('\n' : Char) ∉ p := by
          intro p hp
          rw [hps] at hp
          obtain ⟨q, hq, rfl⟩ := List.mem_map.mp hp
          rw [hL] at hq
          intro hmem
          rcases mem_processLine hmem with h | h | h
          · exact rustLines_no_nl hq h
          · exact absurd h (by decide)
          · exact absurd h (by decide)
        have hcrp : ∀ p ∈ ps, ('\r' : Char) ∉ p := by
          intro p hp
          rw [hps] at hp
          obtain ⟨q, hq, rfl⟩ := List.mem_map.mp hp
          rw [hL] at hq
          intro hmem
          rcases mem_processLine hmem with h | h | h
          · exact hcrcl (mem_rustLines hq h)
          · exact absurd h (by decide)
          · exact absurd h (by decide)
        have hlastp : ps.getLast? ≠ some ([] : List Char) := by
          rw [hps, List.getLast?_map]
          intro h
          obtain ⟨q, hqL, hpl⟩ := Option.map_eq_some'.mp h
          have hqne : q ≠ [] := by
            intro hqnil
            rw [hqnil] at hqL
            rw [hL] at hqL
            exact (rustLines_getLast_ne_nil hclne hcrcl hlastx) hqL
          exact (processLine_ne_nil hqne) hpl
        have hroundtrip : rustLines out = ps := by
          rw [hout]
          exact rustLines_joinNL hpsne hnl hcrp hlastp
        have hmapidem :
            L.map (processLine ∘ processLine) = L.map processLine :=
          List.map_congr_left (fun a _ => processLine_idem a)
        rw [hroundtrip, hps, List.map_map, hmapidem, hout, hps]
  · intro htr c hc
    exact mem_preprocess_keep htr hc
  · intro y hy
    rw [preprocess_utils_eq] at hy
    by_cases h : rustTrim (x.filter (fun c => !utilsControlRange c)) = []
    · rw [if_pos h] at hy
      cases hy
    · rw [if_neg h] at hy
      have hyv : y = x.filter (fun c => !utilsControlRange c) :=
        (Option.some.inj hy).symm
      constructor
      · rw [preprocess_utils_eq]
        have hf : y.filter (fun c => !utilsControlRange c) = y := by
          apply List.filter_eq_self.mpr
          intro c hc
          rw [hyv] at hc
          exact (List.mem_filter.mp hc).2
        rw [hf, if_neg (by rw [hyv]; exact h)]
      · intro c hc
        rw [hyv] at hc
        have hd := (List.mem_filter.mp hc).2
        simpa using hd

/-- Witness for C4 at the concrete input `"a"`: every hypothesis holds and
both preprocessors leave it fixed. -/
theorem C4_preprocess_witness :
    preprocess_iracing_yaml (preprocess_iracing_yaml ['a']) =
      preprocess_iracing_yaml ['a'] ∧
    (∀ c ∈ preprocess_iracing_yaml ['a'], keepCacheChar c = true) ∧
    (preprocess_iracing_yaml_utils ['a'] = some ['a'] ∧
      ∀ c ∈ ['a'], utilsControlRange c = false) := by
  obtain ⟨h1, h2, h3⟩ := C4_preprocess ['a']
  exact ⟨h1 (by decide) (by decide), h2 (by decide), h3 ['a'] (by decide)⟩

/-- C5: on the spec's S3 input the cache preprocessor produces exactly
`UserName:  'O''Connor, Mike'\nTeamName: "Fast & Furious" Racing`; the
output contains the fragment `UserName:  'O''Connor, Mike'`; the TeamName
line (second line of input and of output) is unchanged because its value
already begins with a double quote, even though its key is found first at
position 0; no control character (outside newline, carriage return, tab)
remains; and on the UserName line the transformed key is the first
matching key, `UserName:` at position 0. -/
theorem C5_preprocessor_example :
    preprocess_iracing_yaml c5input = c5expected ∧
    c5fragment <:+: preprocess_iracing_yaml c5input ∧
    (rustLines (preprocess_iracing_yaml c5input))[1]? = some c5teamline ∧
    (rustLines c5input)[1]? = some c5teamline ∧
    firstFoundKey c5teamline problematicKeys =
      some (['T', 'e', 'a', 'm', 'N', 'a', 'm', 'e', ':'], 0) ∧
    processLine c5teamline = c5teamline ∧
    (preprocess_iracing_yaml c5input).all keepCacheChar = true ∧
    firstFoundKey (['U', 's', 'e', 'r', 'N', 'a', 'm', 'e', ':', ' ',
        'O'] ++ quoteCh ::
        ['C', 'o', 'n', 'n', 'o', 'r', ',', ' ', 'M', 'i', 'k', 'e'])
        problematicKeys =
      some (['U', 's', 'e', 'r', 'N', 'a', 'm', 'e', ':'], 0) := by
  refine ⟨by decide, by decide, by decide, by decide, by decide,
    by decide, by decide, by decide⟩

end Pitwall
